import Mathlib

/-!
Shallow embedding of the matching-and-enrichment pipeline of `src/main.py`
(profile matching agent): Python values and dicts, the best-effort JSON
extraction used by `SchemaDetectorAgent.align` and `ProfileMatchingAgent.compare`,
the CSV source, the name-keyed schema cache, and the two orchestrators
`recursive_match` and `recursive_match_with_full_profiles`.

Modelling conventions:
- Python dicts are association lists with string keys (every dict that the
  claims touch — JSON objects, profiles, mappings, results — has string keys);
  insertion order is the list order, assignment updates in place or appends.
- Machine floats of the source are modelled as rationals (`Rat`); the scores
  the pipeline compares (`0.5`, `0.9`, `1.1`, ...) are exactly representable.
- Fallible Python code (raising `TypeError` / `KeyError`) is modelled with
  `Except String`.
- `json.loads` and `ast.literal_eval` are modelled by a recursive-descent
  parser over the JSON-compatible literal subset the pipeline exchanges
  (objects with string keys, arrays, strings with common escapes, decimal
  numbers with optional exponent, booleans, null); `\uXXXX` escapes and
  non-string dict keys are outside the modelled subset and parse as failures.
-/

/-- Model of a Python/JSON value as exchanged by the pipeline. -/
inductive PyVal where
  | none : PyVal
  | bool : Bool → PyVal
  | num : Rat → PyVal
  | str : String → PyVal
  | list : List PyVal → PyVal
  | dict : List (String × PyVal) → PyVal
deriving Repr

/-- A Python dict with string keys, in insertion order. -/
abbrev PyDict := List (String × PyVal)

/-- Model of Python `d[k]` / `d.get(k)` lookup. -/
def dictGet (d : PyDict) (k : String) : Option PyVal :=
  (d.find? (fun kv => kv.1 == k)).map (fun kv => kv.2)

/-- Model of Python `d[k] = v`: update the value in place if the key exists,
else append the new binding at the end (insertion order). -/
def dictSet (d : PyDict) (k : String) (v : PyVal) : PyDict :=
  if d.any (fun kv => kv.1 == k) then
    d.map (fun kv => if kv.1 == k then (k, v) else kv)
  else
    d ++ [(k, v)]

/-- Keys of a dict, in insertion order (Python `list(d.keys())`). -/
def dictKeys (d : PyDict) : List String := d.map (fun kv => kv.1)

/-- Model of the emptiness test `base.data[k] in (None, "", [])` of
`src/main.py` lines 365 and 402: structural equality against the three
empty values `None`, `""` and `[]`. -/
def isEmptyVal (v : PyVal) : Bool :=
  match v with
  | PyVal.none => true
  | PyVal.str s => s == ""
  | PyVal.list l => l.isEmpty
  | _ => false

/-- Python `\s` (ASCII whitespace; the pipeline only exchanges ASCII text). -/
def isWsChar (c : Char) : Bool :=
  c = ' ' || c = '\t' || c = '\n' || c = '\r' || c = Char.ofNat 11 || c = Char.ofNat 12

/-- Drop leading whitespace from a character list. -/
def dropWs (cs : List Char) : List Char := cs.dropWhile isWsChar

/-- Model of Python `str.strip()`. -/
def pyStrip (s : String) : String :=
  String.mk (((s.toList.dropWhile isWsChar).reverse.dropWhile isWsChar).reverse)

/-- Model of `v.strip() if isinstance(v, str) else v`. -/
def pyStripVal (v : PyVal) : PyVal :=
  match v with
  | PyVal.str s => PyVal.str (pyStrip s)
  | v => v

/-- Consume a literal character sequence, returning the rest on success. -/
def matchLit : List Char → List Char → Option (List Char)
  | [], cs => some cs
  | _ :: _, [] => none
  | l :: ls, c :: cs => if l = c then matchLit ls cs else none

/-- The backtick character (code 96). -/
def backtickChar : Char := Char.ofNat 96

/-- The single-quote character (code 39). -/
def squoteChar : Char := Char.ofNat 39

/-- Three backticks, the code fence of the regex in `src/main.py` line 76. -/
def ticks : List Char := [backtickChar, backtickChar, backtickChar]

/-- Lazy body of the regex group `\x7b.*?\x7d` followed by `\s*` and three
backticks: the shortest body whose closing brace is followed by optional
whitespace and a closing fence. Returns the body without the braces. -/
def lazyClose : List Char → Option (List Char)
  | [] => none
  | c :: rest =>
    if c = '\x7d' && (matchLit ticks (dropWs rest)).isSome then some []
    else (lazyClose rest).map (fun b => c :: b)

/-- After the opening fence (and optional `json` tag): `\s*` then the lazy
braced group. Returns the group text including both braces. -/
def fenceAfterTicks (cs : List Char) : Option (List Char) :=
  match dropWs cs with
  | '\x7b' :: rs => (lazyClose rs).map (fun b => '\x7b' :: (b ++ ['\x7d']))
  | _ => none

/-- Try to match the fenced-JSON regex at this exact position, with the
greedy optional `json` tag tried first (backtracking to the untagged
alternative on failure), as `re.search` would. -/
def tryFenceAt (cs : List Char) : Option (List Char) :=
  match matchLit ticks cs with
  | none => none
  | some cs1 =>
    match matchLit ['j', 's', 'o', 'n'] cs1 with
    | some cs2 => (fenceAfterTicks cs2).orElse (fun _ => fenceAfterTicks cs1)
    | none => fenceAfterTicks cs1

/-- Leftmost match of the fenced-JSON regex over the whole string
(`re.search` with `re.DOTALL`), returning group 1. -/
def searchFence : List Char → Option (List Char)
  | [] => none
  | c :: rest => (tryFenceAt (c :: rest)).orElse (fun _ => searchFence rest)

/-- Model of `match.group(1) if match else resp.strip()` from both the
aligner (line 77) and the comparator (line 289). -/
def extractJsonStr (resp : String) : String :=
  match searchFence resp.toList with
  | some g => String.mk g
  | none => pyStrip resp

/-- Parse a maximal run of decimal digits: value, digit count, rest. -/
def parseDigits (cs : List Char) : Option (Nat × Nat × List Char) :=
  let ds := cs.takeWhile Char.isDigit
  if ds.isEmpty then none
  else some (ds.foldl (fun a c => a * 10 + (c.toNat - 48)) 0, ds.length,
             cs.dropWhile Char.isDigit)

/-- Parse a decimal number with optional sign, fraction and exponent
(the shared shape of JSON numbers and Python numeric literals). -/
def parseNumber (cs : List Char) : Option (Rat × List Char) :=
  let signed : Bool × List Char :=
    match cs with
    | '-' :: rest => (true, rest)
    | _ => (false, cs)
  match parseDigits signed.2 with
  | none => none
  | some (ip, _, cs2) =>
    let withFrac : Rat × List Char :=
      match cs2 with
      | '.' :: cs2' =>
        match parseDigits cs2' with
        | some (fp, fn, cs3) => ((ip : Rat) + (fp : Rat) / ((10 : Rat) ^ fn), cs3)
        | none => ((ip : Rat), '.' :: cs2')
      | _ => ((ip : Rat), cs2)
    let withExp : Rat × List Char :=
      match withFrac.2 with
      | e :: cs3' =>
        if e = 'e' ∨ e = 'E' then
          let esigned : Bool × List Char :=
            match cs3' with
            | '+' :: r => (false, r)
            | '-' :: r => (true, r)
            | _ => (false, cs3')
          match parseDigits esigned.2 with
          | some (ev, _, cs4) =>
            (if esigned.1 then withFrac.1 / (10 : Rat) ^ ev
             else withFrac.1 * (10 : Rat) ^ ev, cs4)
          | none => (withFrac.1, e :: cs3')
        else (withFrac.1, e :: cs3')
      | [] => (withFrac.1, [])
    some ((if signed.1 then -withExp.1 else withExp.1), withExp.2)

/-- Escape resolution inside string literals; `py` enables the Python-only
single-quote escape. Unsupported escapes (such as `\uXXXX`) fail. -/
def escChar (py : Bool) (c : Char) : Option Char :=
  if c = 'n' then some '\n'
  else if c = 't' then some '\t'
  else if c = 'r' then some '\r'
  else if c = 'b' then some (Char.ofNat 8)
  else if c = 'f' then some (Char.ofNat 12)
  else if c = '/' then some '/'
  else if c = '\\' then some '\\'
  else if c = '"' then some '"'
  else if py && c = squoteChar then some squoteChar
  else none

/-- Parse the body of a quoted string up to the closing quote `q`;
raw newlines are rejected as in both `json.loads` and `ast.literal_eval`. -/
def parseStringBody (py : Bool) (q : Char) : Nat → List Char → Option (List Char × List Char)
  | 0, _ => none
  | _, [] => none
  | fuel + 1, c :: cs =>
    if c = q then some ([], cs)
    else if c = '\\' then
      match cs with
      | [] => none
      | e :: cs' =>
        match escChar py e with
        | some ec => (parseStringBody py q fuel cs').map (fun br => (ec :: br.1, br.2))
        | none => none
    else if c = '\n' ∨ c = '\r' then none
    else (parseStringBody py q fuel cs).map (fun br => (c :: br.1, br.2))

/-- Parse a quoted string literal; in `py` mode single quotes are accepted. -/
def parseStringAt (py : Bool) (fuel : Nat) (cs : List Char) : Option (String × List Char) :=
  match cs with
  | [] => none
  | c :: rest =>
    if c = '"' ∨ (py ∧ c = squoteChar) then
      (parseStringBody py c fuel rest).map (fun br => (String.mk br.1, br.2))
    else none

mutual

/-- Recursive-descent parser for one value; `py = false` is the strict JSON
grammar of `json.loads`, `py = true` the Python-literal grammar of
`ast.literal_eval` (single quotes, `True`/`False`/`None`). -/
def parseVal (py : Bool) : Nat → List Char → Option (PyVal × List Char)
  | 0, _ => none
  | fuel + 1, cs0 =>
    match dropWs cs0 with
    | [] => none
    | c :: rest =>
      if c = '\x7b' then
        match dropWs rest with
        | '\x7d' :: rest' => some (PyVal.dict [], rest')
        | cs' => parseObjItems py fuel cs' []
      else if c = '[' then
        match dropWs rest with
        | ']' :: rest' => some (PyVal.list [], rest')
        | cs' => parseArrItems py fuel cs' []
      else if c = '"' ∨ (py ∧ c = squoteChar) then
        (parseStringBody py c fuel rest).map (fun br => (PyVal.str (String.mk br.1), br.2))
      else if c = '-' ∨ c.isDigit then
        (parseNumber (c :: rest)).map (fun nr => (PyVal.num nr.1, nr.2))
      else if py then
        match matchLit ['T', 'r', 'u', 'e'] (c :: rest) with
        | some r => some (PyVal.bool true, r)
        | none =>
          match matchLit ['F', 'a', 'l', 's', 'e'] (c :: rest) with
          | some r => some (PyVal.bool false, r)
          | none =>
            match matchLit ['N', 'o', 'n', 'e'] (c :: rest) with
            | some r => some (PyVal.none, r)
            | none => none
      else
        match matchLit ['t', 'r', 'u', 'e'] (c :: rest) with
        | some r => some (PyVal.bool true, r)
        | none =>
          match matchLit ['f', 'a', 'l', 's', 'e'] (c :: rest) with
          | some r => some (PyVal.bool false, r)
          | none =>
            match matchLit ['n', 'u', 'l', 'l'] (c :: rest) with
            | some r => some (PyVal.none, r)
            | none => none

/-- Parse the members of an object after the opening brace (first key is at
the head after whitespace); duplicate keys overwrite as in a Python dict. -/
def parseObjItems (py : Bool) : Nat → List Char → List (String × PyVal) → Option (PyVal × List Char)
  | 0, _, _ => none
  | fuel + 1, cs, acc =>
    match parseStringAt py fuel (dropWs cs) with
    | none => none
    | some (k, cs1) =>
      match dropWs cs1 with
      | ':' :: cs2 =>
        match parseVal py fuel cs2 with
        | none => none
        | some (v, cs3) =>
          match dropWs cs3 with
          | ',' :: cs4 => parseObjItems py fuel cs4 (dictSet acc k v)
          | '\x7d' :: cs4 => some (PyVal.dict (dictSet acc k v), cs4)
          | _ => none
      | _ => none

/-- Parse the elements of an array after the opening bracket. -/
def parseArrItems (py : Bool) : Nat → List Char → List PyVal → Option (PyVal × List Char)
  | 0, _, _ => none
  | fuel + 1, cs, acc =>
    match parseVal py fuel cs with
    | none => none
    | some (v, cs1) =>
      match dropWs cs1 with
      | ',' :: cs2 => parseArrItems py fuel cs2 (acc ++ [v])
      | ']' :: cs2 => some (PyVal.list (acc ++ [v]), cs2)
      | _ => none

end

/-- Model of `json.loads` on the exchanged subset: one value, then only
whitespace may remain. -/
def jsonLoads (s : String) : Option PyVal :=
  match parseVal false (2 * s.length + 8) s.toList with
  | some (v, rest) => if (dropWs rest).isEmpty then some v else none
  | none => none

/-- Model of `ast.literal_eval` on the exchanged subset. -/
def pyLiteralEval (s : String) : Option PyVal :=
  match parseVal true (2 * s.length + 8) s.toList with
  | some (v, rest) => if (dropWs rest).isEmpty then some v else none
  | none => none

namespace SchemaDetectorAgent

/-- Response handling of `SchemaDetectorAgent.align` (`src/main.py` lines
74-90): extract the fenced JSON object (else the stripped response), try
`json.loads`, on `JSONDecodeError` try `ast.literal_eval`, on any further
failure return the empty dict. The value is returned as parsed (the source
does not check that it is a dict). -/
def alignParse (resp : String) : PyVal :=
  let json_str := extractJsonStr resp
  match jsonLoads json_str with
  | some v => v
  | none =>
    match pyLiteralEval json_str with
    | some v => v
    | none => PyVal.dict []

/-- Modelled from the spec (section 4.2, steps (a)-(d)): extract a JSON
object from a fenced block if present, else use the trimmed whole response;
parse as strict JSON; on failure attempt a permissive literal parse; on
total failure return an empty mapping. -/
def alignSpecParse (resp : String) : PyVal :=
  let e := extractJsonStr resp
  ((jsonLoads e).orElse (fun _ => pyLiteralEval e)).getD (PyVal.dict [])

end SchemaDetectorAgent

namespace ProfileMatchingAgent

/-- Response handling of `ProfileMatchingAgent.compare` (`src/main.py` lines
287-292): extract the fenced JSON object (else the stripped response), try
`json.loads`; on any failure return `{"score": 0.0, "reason": resp}` with
the raw response as the reason. There is no `ast.literal_eval` fallback. -/
def compareParse (resp : String) : PyVal :=
  let json_str := extractJsonStr resp
  match jsonLoads json_str with
  | some v => v
  | none => PyVal.dict [("score", PyVal.num 0), ("reason", PyVal.str resp)]

/-- Modelled from the spec's claim for the comparator: the same extraction
and two-stage strict-then-permissive parse as the aligner, with
`{"score": 0.0, "reason": resp}` on total failure. -/
def compareClaimParse (resp : String) : PyVal :=
  let e := extractJsonStr resp
  ((jsonLoads e).orElse (fun _ => pyLiteralEval e)).getD
    (PyVal.dict [("score", PyVal.num 0), ("reason", PyVal.str resp)])

/-- The amended comparator contract: fenced extraction then strict JSON
parse only (no permissive fallback), defaulting to
`{"score": 0.0, "reason": resp}` on any parse failure. -/
def compareAmendedParse (resp : String) : PyVal :=
  let e := extractJsonStr resp
  (jsonLoads e).getD (PyVal.dict [("score", PyVal.num 0), ("reason", PyVal.str resp)])

end ProfileMatchingAgent

/-!
CSV source (`CSVSource` in `src/main.py`, lines 303-314), built on
`csv.DictReader`. The modelled dialect is the plain comma/newline subset the
repository's data uses (no quoting). A data row longer than the header would
additionally bind the remaining cells to the non-string key `None`
(`DictReader.restkey`); dict keys are strings in this embedding, so that
binding is outside the modelled subset and no claim depends on it.
-/

/-- Split one CSV line on commas; a blank line is the empty row, as produced
by `csv.reader`. -/
def splitCsvLine (line : String) : List String :=
  if line = "" then [] else line.splitOn ","

/-- The rows of a CSV text, in order. -/
def csvRows (s : String) : List (List String) :=
  (s.splitOn "\n").map splitCsvLine

/-- One `csv.DictReader` row dict: zip the fieldnames with the cells, then
bind each missing trailing fieldname to `restval = None`. -/
def dictReaderRow (fns : List String) (row : List String) : PyDict :=
  let d := (List.zip fns row).foldl (fun d kc => dictSet d kc.1 (PyVal.str kc.2)) []
  (fns.drop row.length).foldl (fun d k => dictSet d k PyVal.none) d

/-- Model of `CSVSource`: a name and the raw CSV text. -/
structure CSVSource where
  name : String
  csv_str : String

namespace CSVSource

/-- Model of `CSVSource.infer_schema`: `reader.fieldnames or []`, the header
row of the text. -/
def infer_schema (src : CSVSource) : List String :=
  match csvRows src.csv_str with
  | [] => []
  | fns :: _ => fns

/-- Model of `CSVSource.get_profiles`: one profile dict per data row, with
blank rows skipped by `DictReader`. -/
def get_profiles (src : CSVSource) : List PyDict :=
  match csvRows src.csv_str with
  | [] => []
  | fns :: rows => (rows.filter (fun r => !r.isEmpty)).map (dictReaderRow fns)

end CSVSource

/-!
The orchestrators (`recursive_match`, lines 336-370, and
`recursive_match_with_full_profiles`, lines 373-415). The external LLM is
abstracted behind two oracles: the align prompt is a function of exactly the
base and target field lists (lines 56-71) and the compare prompt of exactly
the two profiles' data (lines 262-282), so a deterministic
prompt-to-response service induces
`alignOf : List String → List String → List (String × String)` (the parsed
target-to-base mapping, a string-to-string dict per the SchemaMapping
contract) and `compareOf : PyDict → PyDict → PyDict` (the parsed comparison
response, a JSON object). Python run-time errors of the loop (`TypeError`
on a non-orderable score, `KeyError` in the final sort) are modelled with
`Except String`: an erroring run produces no value.
-/

/-- A data source as the orchestrator consumes it: its name, the result of
`infer_schema()`, and the `data` of each profile from `get_profiles()`. -/
structure SrcData where
  name : String
  schema : List String
  profiles : List PyDict

/-- The schema cache of a `SchemaDetectorAgent` instance, keyed by source
name (`self.cache`). -/
abbrev Cache := List (String × List String)

/-- Model of `SchemaDetectorAgent.detect` (lines 48-53): return the cached
schema for the source's name if present; otherwise call `infer_schema`
(here: read `schema`) and cache it under the name. -/
def detect (c : Cache) (s : SrcData) : List String × Cache :=
  match c.find? (fun kv => kv.1 == s.name) with
  | some kv => (kv.2, c)
  | none => (s.schema, c ++ [(s.name, s.schema)])

/-- Lookup in a string-to-string mapping (Python `mapping.get(k)`). -/
def mapGet (m : List (String × String)) (k : String) : Option String :=
  (m.find? (fun kv => kv.1 == k)).map (fun kv => kv.2)

/-- The normalized candidate (lines 348-353): for each field of the source
row in order, if the mapping has a truthy value for it, bind that base field
to the stripped cell value. -/
def normalizeProfile (mapping : List (String × String)) (p : PyDict) : PyDict :=
  p.foldl
    (fun nd kv =>
      match mapGet mapping kv.1 with
      | some bf => if bf ≠ "" then dictSet nd bf (pyStripVal kv.2) else nd
      | none => nd)
    []

/-- The enrichment loop (lines 364-367): write each normalized field into
the base profile only where the key is absent or its value is empty. -/
def enrich (base : PyDict) (normalized : PyDict) : PyDict :=
  normalized.foldl
    (fun b kv =>
      match dictGet b kv.1 with
      | none => dictSet b kv.1 kv.2
      | some v => if isEmptyVal v then dictSet b kv.1 kv.2 else b)
    base

/-- The score used for the threshold test, `res.get("score", 0)` followed by
`score >= threshold`: a missing key counts as `0`, a boolean compares as its
integer value, and any other value raises `TypeError`. -/
def scoreOfRes (res : PyDict) : Except String Rat :=
  match dictGet res "score" with
  | none => Except.ok 0
  | some (PyVal.num q) => Except.ok q
  | some (PyVal.bool b) => Except.ok (if b then 1 else 0)
  | some _ => Except.error "TypeError: score not orderable against threshold"

/-- The sort key `x["score"]` of line 370: a missing key raises `KeyError`,
a non-numeric value raises `TypeError` when compared. -/
def sortKeyOf (res : PyDict) : Except String Rat :=
  match dictGet res "score" with
  | none => Except.error "KeyError: score"
  | some (PyVal.num q) => Except.ok q
  | some (PyVal.bool b) => Except.ok (if b then 1 else 0)
  | some _ => Except.error "TypeError: score not orderable in sort"

/-- Mutable state of one `recursive_match` run: the agent's schema cache,
the base profile's data, and the results collected so far. -/
structure OrchState where
  cache : Cache
  base : PyDict
  results : List PyDict

/-- One candidate profile of `recursive_match` (lines 347-369): normalize
through the mapping, compare against the current base, and on a score at or
above the threshold enrich the base and append the result annotated with
`source` and `candidate`. -/
def processProfile (compareOf : PyDict → PyDict → PyDict) (threshold : Rat)
    (srcName : String) (mapping : List (String × String))
    (st : OrchState) (p : PyDict) : Except String OrchState :=
  let normalized := normalizeProfile mapping p
  let res := compareOf st.base normalized
  match scoreOfRes res with
  | Except.error e => Except.error e
  | Except.ok score =>
    if threshold ≤ score then
      let base' := enrich st.base normalized
      let res' := dictSet (dictSet res "source" (PyVal.str srcName))
                    "candidate" (PyVal.dict normalized)
      Except.ok ⟨st.cache, base', st.results ++ [res']⟩
    else
      Except.ok st

/-- One source of `recursive_match` (lines 341-369): read the current base
fields, detect the target schema through the cache, align, and fold over the
source's profiles. -/
def processSource (alignOf : List String → List String → List (String × String))
    (compareOf : PyDict → PyDict → PyDict) (threshold : Rat)
    (st : OrchState) (src : SrcData) : Except String OrchState :=
  let base_fields := dictKeys st.base
  let dc := detect st.cache src
  let mapping := alignOf base_fields dc.1
  src.profiles.foldlM (processProfile compareOf threshold src.name mapping)
    ⟨dc.2, st.base, st.results⟩

/-- Stable insertion into a score-keyed list sorted by descending score: the
new element goes after every earlier element of greater or equal score. -/
def insertDesc (x : Rat × PyDict) : List (Rat × PyDict) → List (Rat × PyDict)
  | [] => [x]
  | y :: ys => if y.1 < x.1 then x :: y :: ys else y :: insertDesc x ys

/-- Model of `sorted(results, key=lambda x: x["score"], reverse=True)` on
already-extracted keys: a stable descending sort. -/
def sortDescIns (l : List (Rat × PyDict)) : List (Rat × PyDict) :=
  l.foldl (fun acc x => insertDesc x acc) []

/-- Model of `recursive_match` (lines 336-370): fold the sources over a
fresh agent state, then return the results stably sorted by descending
score together with the final (enriched in place) base profile. -/
def recursive_match (alignOf : List String → List String → List (String × String))
    (compareOf : PyDict → PyDict → PyDict)
    (base : PyDict) (sources : List SrcData) (threshold : Rat) :
    Except String (List PyDict × PyDict) := do
  let st ← sources.foldlM (processSource alignOf compareOf threshold) ⟨[], base, []⟩
  let keyed ← st.results.mapM (fun r => do
    let q ← sortKeyOf r
    pure (q, r))
  pure ((sortDescIns keyed).map (fun x => x.2), st.base)

/-- One candidate profile of `recursive_match_with_full_profiles` (lines
387-413): as `processProfile`, but the result is further annotated with
`full_profile` (the unmapped source row) and `field_mapping` (the mapping
used). -/
def processProfileFull (compareOf : PyDict → PyDict → PyDict) (threshold : Rat)
    (srcName : String) (mapping : List (String × String))
    (st : OrchState) (p : PyDict) : Except String OrchState :=
  let normalized := normalizeProfile mapping p
  let res := compareOf st.base normalized
  match scoreOfRes res with
  | Except.error e => Except.error e
  | Except.ok score =>
    if threshold ≤ score then
      let base' := enrich st.base normalized
      let res' := dictSet (dictSet (dictSet (dictSet res "source" (PyVal.str srcName))
                    "candidate" (PyVal.dict normalized))
                    "full_profile" (PyVal.dict p))
                    "field_mapping" (PyVal.dict (mapping.map (fun kv => (kv.1, PyVal.str kv.2))))
      Except.ok ⟨st.cache, base', st.results ++ [res']⟩
    else
      Except.ok st

/-- One source of `recursive_match_with_full_profiles` (lines 382-413). -/
def processSourceFull (alignOf : List String → List String → List (String × String))
    (compareOf : PyDict → PyDict → PyDict) (threshold : Rat)
    (st : OrchState) (src : SrcData) : Except String OrchState :=
  let base_fields := dictKeys st.base
  let dc := detect st.cache src
  let mapping := alignOf base_fields dc.1
  src.profiles.foldlM (processProfileFull compareOf threshold src.name mapping)
    ⟨dc.2, st.base, st.results⟩

/-- Model of `recursive_match_with_full_profiles` (lines 373-415). -/
def recursive_match_with_full_profiles
    (alignOf : List String → List String → List (String × String))
    (compareOf : PyDict → PyDict → PyDict)
    (base : PyDict) (sources : List SrcData) (threshold : Rat) :
    Except String (List PyDict × PyDict) := do
  let st ← sources.foldlM (processSourceFull alignOf compareOf threshold) ⟨[], base, []⟩
  let keyed ← st.results.mapM (fun r => do
    let q ← sortKeyOf r
    pure (q, r))
  pure ((sortDescIns keyed).map (fun x => x.2), st.base)

/-!
Trace-instrumented run of `recursive_match`: the same recursion, with every
alignment request and every candidate recorded, used to state per-candidate
properties (threshold decisions, mapping gating, order of alignment
requests). The instrumented run projects onto the plain one
(`recursive_match_trace_proj` below).
-/

/-- One recorded alignment request of a run: the source, the base fields as
sent, the detected target fields, and the mapping the service returned. -/
structure AlignTrace where
  srcName : String
  baseFields : List String
  targetFields : List String
  mapping : List (String × String)
deriving Repr

/-- One recorded candidate of a run: the source row, the mapping in force,
the normalized form, the base profile at comparison time, the comparison
result, the score used for the threshold test, and whether a result was
emitted. -/
structure CandTrace where
  srcName : String
  row : PyDict
  mapping : List (String × String)
  normalized : PyDict
  baseBefore : PyDict
  res : PyDict
  scoreUsed : Rat
  emitted : Bool
deriving Repr

/-- State of an instrumented run: the plain state plus the two traces. -/
structure TState where
  cache : Cache
  base : PyDict
  results : List PyDict
  aligns : List AlignTrace
  cands : List CandTrace

/-- Projection of an instrumented state onto the plain state. -/
def TState.proj (st : TState) : OrchState := ⟨st.cache, st.base, st.results⟩

/-- Instrumented `processProfile`: identical decisions, one `CandTrace`
appended per candidate. -/
def processProfileT (compareOf : PyDict → PyDict → PyDict) (threshold : Rat)
    (srcName : String) (mapping : List (String × String))
    (st : TState) (p : PyDict) : Except String TState :=
  let normalized := normalizeProfile mapping p
  let res := compareOf st.base normalized
  match scoreOfRes res with
  | Except.error e => Except.error e
  | Except.ok score =>
    let entry : CandTrace :=
      ⟨srcName, p, mapping, normalized, st.base, res, score, threshold ≤ score⟩
    if threshold ≤ score then
      let base' := enrich st.base normalized
      let res' := dictSet (dictSet res "source" (PyVal.str srcName))
                    "candidate" (PyVal.dict normalized)
      Except.ok ⟨st.cache, base', st.results ++ [res'], st.aligns, st.cands ++ [entry]⟩
    else
      Except.ok ⟨st.cache, st.base, st.results, st.aligns, st.cands ++ [entry]⟩

/-- Instrumented `processSource`: identical decisions, one `AlignTrace`
appended per source. -/
def processSourceT (alignOf : List String → List String → List (String × String))
    (compareOf : PyDict → PyDict → PyDict) (threshold : Rat)
    (st : TState) (src : SrcData) : Except String TState :=
  let base_fields := dictKeys st.base
  let dc := detect st.cache src
  let mapping := alignOf base_fields dc.1
  src.profiles.foldlM (processProfileT compareOf threshold src.name mapping)
    ⟨dc.2, st.base, st.results, st.aligns ++ [⟨src.name, base_fields, dc.1, mapping⟩], st.cands⟩

/-- Instrumented `recursive_match`, additionally returning both traces. -/
def recursive_match_trace
    (alignOf : List String → List String → List (String × String))
    (compareOf : PyDict → PyDict → PyDict)
    (base : PyDict) (sources : List SrcData) (threshold : Rat) :
    Except String (List PyDict × PyDict × List AlignTrace × List CandTrace) := do
  let st ← sources.foldlM (processSourceT alignOf compareOf threshold) ⟨[], base, [], [], []⟩
  let keyed ← st.results.mapM (fun r => do
    let q ← sortKeyOf r
    pure (q, r))
  pure ((sortDescIns keyed).map (fun x => x.2), st.base, st.aligns, st.cands)

/-!
Lemmas about the dict model.
-/

theorem dictGet_nil (k : String) : dictGet [] k = none := rfl

theorem dictGet_cons (a : String × PyVal) (d : PyDict) (k : String) :
    dictGet (a :: d) k = if a.1 = k then some a.2 else dictGet d k := by
  by_cases h : a.1 = k
  · rw [if_pos h]
    simp only [dictGet]
    rw [List.find?_cons_of_pos _ (by simp [h])]
    rfl
  · rw [if_neg h]
    simp only [dictGet]
    rw [List.find?_cons_of_neg _ (by simp [h])]

theorem dictGet_append (d e : PyDict) (k : String) :
    dictGet (d ++ e) k =
      match dictGet d k with
      | some v => some v
      | none => dictGet e k := by
  induction d with
  | nil => simp [dictGet_nil]
  | cons a d ih =>
    by_cases h : a.1 = k
    · simp [dictGet_cons, h]
    · simp [dictGet_cons, h, ih]

theorem dictGet_eq_none_iff (d : PyDict) (k : String) :
    dictGet d k = none ↔ d.any (fun kv => kv.1 == k) = false := by
  induction d with
  | nil => simp [dictGet_nil]
  | cons a d ih =>
    by_cases h : a.1 = k
    · simp [dictGet_cons, h]
    · simp [dictGet_cons, h, ih]

theorem map_set_id (d : PyDict) (k : String) (v : PyVal)
    (h : d.any (fun kv => kv.1 == k) = false) :
    d.map (fun kv => if kv.1 == k then (k, v) else kv) = d := by
  induction d with
  | nil => rfl
  | cons a d ih =>
    simp only [List.any_cons, Bool.or_eq_false_iff] at h
    simp only [List.map_cons]
    rw [if_neg (by simp [h.1]), ih h.2]

theorem dictGet_map_set_self (d : PyDict) (k : String) (v : PyVal)
    (h : d.any (fun kv => kv.1 == k) = true) :
    dictGet (d.map (fun kv => if kv.1 == k then (k, v) else kv)) k = some v := by
  induction d with
  | nil => simp at h
  | cons a d ih =>
    by_cases hk : a.1 = k
    · simp only [List.map_cons]
      rw [if_pos (by simpa using hk), dictGet_cons, if_pos rfl]
    · have hne : (a.1 == k) = false := by simpa using hk
      rw [List.any_cons, hne, Bool.false_or] at h
      simp only [List.map_cons]
      rw [if_neg (by simp [hne]), dictGet_cons, if_neg hk]
      exact ih h

theorem dictGet_map_set_ne (d : PyDict) (k k' : String) (v : PyVal) (h : k' ≠ k) :
    dictGet (d.map (fun kv => if kv.1 == k then (k, v) else kv)) k' = dictGet d k' := by
  induction d with
  | nil => rfl
  | cons a d ih =>
    by_cases hk : a.1 = k
    · simp only [List.map_cons]
      rw [if_pos (by simpa using hk), dictGet_cons, dictGet_cons,
          if_neg (show ¬ ((k, v).1 = k') from Ne.symm h),
          if_neg (show ¬ (a.1 = k') by rw [hk]; exact Ne.symm h)]
      exact ih
    · simp only [List.map_cons]
      rw [if_neg (by simpa using hk), dictGet_cons, dictGet_cons, ih]

theorem dictGet_dictSet_self (d : PyDict) (k : String) (v : PyVal) :
    dictGet (dictSet d k v) k = some v := by
  unfold dictSet
  by_cases h : d.any (fun kv => kv.1 == k)
  · simp only [h, if_true]
    exact dictGet_map_set_self d k v h
  · have hf : d.any (fun kv => kv.1 == k) = false := eq_false_of_ne_true h
    simp only [hf]
    rw [if_neg (by simp), dictGet_append, (dictGet_eq_none_iff d k).mpr hf]
    simp [dictGet_cons]

theorem dictGet_dictSet_ne (d : PyDict) (k k' : String) (v : PyVal) (h : k' ≠ k) :
    dictGet (dictSet d k v) k' = dictGet d k' := by
  unfold dictSet
  by_cases hany : d.any (fun kv => kv.1 == k)
  · simp only [hany, if_true]
    exact dictGet_map_set_ne d k k' v h
  · simp only [eq_false_of_ne_true hany]
    rw [if_neg (by simp), dictGet_append]
    cases hd : dictGet d k' with
    | some w => rfl
    | none => simp [dictGet_cons, Ne.symm h, dictGet_nil]

theorem dictKeys_map_set (d : PyDict) (k : String) (v : PyVal) :
    dictKeys (d.map (fun kv => if kv.1 == k then (k, v) else kv)) = dictKeys d := by
  induction d with
  | nil => rfl
  | cons a d ih =>
    by_cases hk : a.1 = k
    · simp only [List.map_cons]
      rw [if_pos (by simpa using hk)]
      simp only [dictKeys, List.map_cons] at ih ⊢
      rw [ih, ← hk]
    · simp only [List.map_cons]
      rw [if_neg (by simpa using hk)]
      simp only [dictKeys, List.map_cons] at ih ⊢
      rw [ih]

theorem dictKeys_dictSet (d : PyDict) (k : String) (v : PyVal) :
    dictKeys (dictSet d k v) = dictKeys d ∨ dictKeys (dictSet d k v) = dictKeys d ++ [k] := by
  unfold dictSet
  by_cases h : d.any (fun kv => kv.1 == k)
  · left
    simp only [h, if_true]
    exact dictKeys_map_set d k v
  · right
    simp only [eq_false_of_ne_true h]
    rw [if_neg (by simp)]
    simp [dictKeys]

theorem mem_dictKeys_dictSet (d : PyDict) (k k' : String) (v : PyVal)
    (h : k' ∈ dictKeys (dictSet d k v)) : k' ∈ dictKeys d ∨ k' = k := by
  rcases dictKeys_dictSet d k v with he | he <;> rw [he] at h
  · exact Or.inl h
  · rcases List.mem_append.mp h with h' | h'
    · exact Or.inl h'
    · exact Or.inr (List.mem_singleton.mp h')

theorem dictKeys_cons (a : String × PyVal) (d : PyDict) :
    dictKeys (a :: d) = a.1 :: dictKeys d := rfl

/-!
Lemmas about enrichment and normalization.
-/

theorem enrich_nil (b : PyDict) : enrich b [] = b := rfl

theorem enrich_cons (b : PyDict) (a : String × PyVal) (n : PyDict) :
    enrich b (a :: n) =
      enrich (match dictGet b a.1 with
              | none => dictSet b a.1 a.2
              | some v => if isEmptyVal v then dictSet b a.1 a.2 else b) n := rfl

/-- Enrichment never changes a key that already holds a non-empty value. -/
theorem enrich_preserves (n : PyDict) (b : PyDict) (k : String) (v : PyVal)
    (hb : dictGet b k = some v) (hne : isEmptyVal v = false) :
    dictGet (enrich b n) k = some v := by
  induction n generalizing b with
  | nil => exact hb
  | cons a n ih =>
    rw [enrich_cons]
    cases hba : dictGet b a.1 with
    | none =>
      have hk : k ≠ a.1 := fun hc => by rw [hc, hba] at hb; cases hb
      exact ih _ (by rw [dictGet_dictSet_ne b a.1 k a.2 hk]; exact hb)
    | some w =>
      by_cases he : isEmptyVal w
      · have hk : k ≠ a.1 := by
          intro hc
          rw [hc, hba] at hb
          rw [Option.some_inj.mp hb] at he
          rw [he] at hne
          cases hne
        simp only [he, if_true]
        exact ih _ (by rw [dictGet_dictSet_ne b a.1 k a.2 hk]; exact hb)
      · simp only [he, Bool.false_eq_true, if_false]
        exact ih _ hb

/-- Enrichment only touches keys of the normalized candidate. -/
theorem enrich_not_mem (n : PyDict) (b : PyDict) (k : String) (h : k ∉ dictKeys n) :
    dictGet (enrich b n) k = dictGet b k := by
  induction n generalizing b with
  | nil => rfl
  | cons a n ih =>
    rw [enrich_cons]
    have hk : k ≠ a.1 := fun hc => h (by rw [dictKeys_cons, hc]; exact List.mem_cons_self _ _)
    have hn : k ∉ dictKeys n := fun hc => h (by rw [dictKeys_cons]; exact List.mem_cons_of_mem _ hc)
    cases hba : dictGet b a.1 with
    | none => rw [ih _ hn, dictGet_dictSet_ne b a.1 k a.2 hk]
    | some w =>
      by_cases he : isEmptyVal w
      · simp only [he, if_true]
        rw [ih _ hn, dictGet_dictSet_ne b a.1 k a.2 hk]
      · simp only [he, Bool.false_eq_true, if_false]
        exact ih _ hn

theorem mapGet_mem (m : List (String × String)) (k v : String) (h : mapGet m k = some v) :
    v ∈ m.map (fun kv => kv.2) := by
  unfold mapGet at h
  cases hf : m.find? (fun kv => kv.1 == k) with
  | none => rw [hf] at h; cases h
  | some kv =>
    rw [hf] at h
    simp only [Option.map_some', Option.some_inj] at h
    exact List.mem_map.mpr ⟨kv, List.mem_of_find?_eq_some hf, h⟩

/-- Every key of the normalized candidate is a value of the mapping
(accumulator-generalized form). -/
theorem normalize_aux_keys (m : List (String × String)) (p : PyDict) :
    ∀ acc : PyDict, (∀ k ∈ dictKeys acc, k ∈ m.map (fun kv => kv.2)) →
    ∀ k ∈ dictKeys (p.foldl
      (fun nd kv =>
        match mapGet m kv.1 with
        | some bf => if bf ≠ "" then dictSet nd bf (pyStripVal kv.2) else nd
        | none => nd) acc), k ∈ m.map (fun kv => kv.2) := by
  induction p with
  | nil => intro acc hacc k hk; exact hacc k hk
  | cons a p ih =>
    intro acc hacc k hk
    rw [List.foldl_cons] at hk
    refine ih _ ?_ k hk
    intro k' hk'
    cases hm : mapGet m a.1 with
    | none => simp only [hm] at hk'; exact hacc k' hk'
    | some bf =>
      simp only [hm] at hk'
      by_cases hbf : bf ≠ ""
      · rw [if_pos hbf] at hk'
        rcases mem_dictKeys_dictSet _ _ _ _ hk' with h' | h'
        · exact hacc k' h'
        · rw [h']; exact mapGet_mem m a.1 bf hm
      · rw [if_neg hbf] at hk'
        exact hacc k' hk'

/-- Mapping gating at the function level: every key of the normalized
candidate is a value of the alignment mapping. -/
theorem normalizeProfile_keys (m : List (String × String)) (p : PyDict) :
    ∀ k ∈ dictKeys (normalizeProfile m p), k ∈ m.map (fun kv => kv.2) := by
  exact normalize_aux_keys m p [] (by intro k hk; cases hk)

/-!
Helpers for `Except`-valued folds.
-/

theorem except_bind_ok {α β : Type} (x : α) (g : α → Except String β) :
    (Except.ok x >>= g) = g x := rfl

theorem except_bind_error {α β : Type} (e : String) (g : α → Except String β) :
    ((Except.error e : Except String α) >>= g) = Except.error e := rfl

theorem except_map_ok {α β : Type} (x : α) (f : α → β) :
    (Except.ok x : Except String α).map f = Except.ok (f x) := rfl

theorem except_pure_bind {α β : Type} (x : α) (g : α → Except String β) :
    ((pure x : Except String α) >>= g) = g x := rfl

theorem except_map_error {α β : Type} (e : String) (f : α → β) :
    (Except.error e : Except String α).map f = Except.error e := rfl

theorem foldlM_ok_invariant {α β : Type} (f : β → α → Except String β) (P : β → Prop)
    (l : List α) :
    ∀ s t, l.foldlM f s = Except.ok t → P s →
      (∀ b a b', a ∈ l → P b → f b a = Except.ok b' → P b') → P t := by
  induction l with
  | nil =>
    intro s t h hs _
    simp only [List.foldlM_nil] at h
    cases h
    exact hs
  | cons a l ih =>
    intro s t h hs hstep
    rw [List.foldlM_cons] at h
    cases hf : f s a with
    | error e => rw [hf, except_bind_error] at h; cases h
    | ok s' =>
      rw [hf, except_bind_ok] at h
      exact ih s' t h (hstep s a s' (List.mem_cons_self _ _) hs hf)
        (fun b x b' hx => hstep b x b' (List.mem_cons_of_mem _ hx))

theorem foldlM_append_ok {α β : Type} (f : β → α → Except String β) (l₁ l₂ : List α) :
    ∀ s t, (l₁ ++ l₂).foldlM f s = Except.ok t →
      ∃ m, l₁.foldlM f s = Except.ok m ∧ l₂.foldlM f m = Except.ok t := by
  induction l₁ with
  | nil =>
    intro s t h
    exact ⟨s, rfl, by simpa using h⟩
  | cons a l ih =>
    intro s t h
    rw [List.cons_append, List.foldlM_cons] at h
    cases hf : f s a with
    | error e => rw [hf, except_bind_error] at h; cases h
    | ok s' =>
      rw [hf, except_bind_ok] at h
      obtain ⟨m, h1, h2⟩ := ih s' t h
      exact ⟨m, by rw [List.foldlM_cons, hf, except_bind_ok]; exact h1, h2⟩

/-!
The instrumented run projects onto the plain run.
-/

theorem processProfileT_proj (C : PyDict → PyDict → PyDict) (τ : Rat)
    (n : String) (m : List (String × String)) (st : TState) (p : PyDict) :
    (processProfileT C τ n m st p).map TState.proj = processProfile C τ n m st.proj p := by
  unfold processProfileT processProfile TState.proj
  cases hs : scoreOfRes (C st.base (normalizeProfile m p)) with
  | error e => simp [hs, except_map_error]
  | ok score =>
    by_cases h : τ ≤ score
    · simp [hs, h, except_map_ok]
    · simp [hs, h, except_map_ok]

theorem foldlM_profiles_proj (C : PyDict → PyDict → PyDict) (τ : Rat)
    (n : String) (m : List (String × String)) (l : List PyDict) :
    ∀ st : TState, (l.foldlM (processProfileT C τ n m) st).map TState.proj
      = l.foldlM (processProfile C τ n m) st.proj := by
  induction l with
  | nil => intro st; rfl
  | cons p l ih =>
    intro st
    rw [List.foldlM_cons, List.foldlM_cons]
    cases hf : processProfileT C τ n m st p with
    | error e =>
      have hp : processProfile C τ n m st.proj p = Except.error e := by
        rw [← processProfileT_proj, hf]; rfl
      rw [hp, except_bind_error, except_bind_error, except_map_error]
    | ok st' =>
      have hp : processProfile C τ n m st.proj p = Except.ok st'.proj := by
        rw [← processProfileT_proj, hf]; rfl
      rw [hp, except_bind_ok, except_bind_ok, ih st']

theorem processSourceT_proj (A : List String → List String → List (String × String))
    (C : PyDict → PyDict → PyDict) (τ : Rat) (st : TState) (src : SrcData) :
    (processSourceT A C τ st src).map TState.proj = processSource A C τ st.proj src := by
  unfold processSourceT processSource
  exact foldlM_profiles_proj C τ src.name
    (A (dictKeys st.base) (detect st.cache src).1) src.profiles _

theorem foldlM_sources_proj (A : List String → List String → List (String × String))
    (C : PyDict → PyDict → PyDict) (τ : Rat) (l : List SrcData) :
    ∀ st : TState, (l.foldlM (processSourceT A C τ) st).map TState.proj
      = l.foldlM (processSource A C τ) st.proj := by
  induction l with
  | nil => intro st; rfl
  | cons src l ih =>
    intro st
    rw [List.foldlM_cons, List.foldlM_cons]
    cases hf : processSourceT A C τ st src with
    | error e =>
      have hp : processSource A C τ st.proj src = Except.error e := by
        rw [← processSourceT_proj, hf]; rfl
      rw [hp, except_bind_error, except_bind_error, except_map_error]
    | ok st' =>
      have hp : processSource A C τ st.proj src = Except.ok st'.proj := by
        rw [← processSourceT_proj, hf]; rfl
      rw [hp, except_bind_ok, except_bind_ok, ih st']

/-- Characterization of a successful instrumented run: the final fold state,
with the sort step decomposed. -/
theorem trace_run_ok (A : List String → List String → List (String × String))
    (C : PyDict → PyDict → PyDict) (base : PyDict) (sources : List SrcData) (τ : Rat)
    (rs : List PyDict) (b : PyDict) (al : List AlignTrace) (cd : List CandTrace)
    (h : recursive_match_trace A C base sources τ = Except.ok (rs, b, al, cd)) :
    ∃ st : TState, sources.foldlM (processSourceT A C τ) ⟨[], base, [], [], []⟩ = Except.ok st ∧
      st.base = b ∧ st.aligns = al ∧ st.cands = cd ∧
      ∃ keyed, st.results.mapM (fun r => do
          let q ← sortKeyOf r
          pure (q, r)) = Except.ok keyed ∧
        rs = (sortDescIns keyed).map (fun x => x.2) := by
  unfold recursive_match_trace at h
  cases hf : sources.foldlM (processSourceT A C τ) ⟨[], base, [], [], []⟩ with
  | error e => rw [hf] at h; cases h
  | ok st =>
    rw [hf] at h
    cases hm : st.results.mapM (fun r => do
        let q ← sortKeyOf r
        pure (q, r)) with
    | error e =>
      rw [show (Except.ok st >>= fun st => (st.results.mapM (fun r => do
            let q ← sortKeyOf r
            pure (q, r)) >>= fun keyed =>
            pure ((sortDescIns keyed).map (fun x => x.2), st.base, st.aligns, st.cands)) :
          Except String (List PyDict × PyDict × List AlignTrace × List CandTrace))
        = (st.results.mapM (fun r => do
            let q ← sortKeyOf r
            pure (q, r)) >>= fun keyed =>
            pure ((sortDescIns keyed).map (fun x => x.2), st.base, st.aligns, st.cands)) from rfl,
        hm, except_bind_error] at h
      cases h
    | ok keyed =>
      rw [show (Except.ok st >>= fun st => (st.results.mapM (fun r => do
            let q ← sortKeyOf r
            pure (q, r)) >>= fun keyed =>
            pure ((sortDescIns keyed).map (fun x => x.2), st.base, st.aligns, st.cands)) :
          Except String (List PyDict × PyDict × List AlignTrace × List CandTrace))
        = (st.results.mapM (fun r => do
            let q ← sortKeyOf r
            pure (q, r)) >>= fun keyed =>
            pure ((sortDescIns keyed).map (fun x => x.2), st.base, st.aligns, st.cands)) from rfl,
        hm, except_bind_ok] at h
      have h' := Except.ok.inj h
      refine ⟨st, rfl, ?_, ?_, ?_, keyed, hm, ?_⟩
      · exact (congrArg (fun x => x.2.1) h')
      · exact (congrArg (fun x => x.2.2.1) h')
      · exact (congrArg (fun x => x.2.2.2) h')
      · exact (congrArg (fun x => x.1) h').symm

/-- A successful instrumented run yields exactly the plain run's results and
final base. -/
theorem trace_to_plain (A : List String → List String → List (String × String))
    (C : PyDict → PyDict → PyDict) (base : PyDict) (sources : List SrcData) (τ : Rat)
    (rs : List PyDict) (b : PyDict) (al : List AlignTrace) (cd : List CandTrace)
    (h : recursive_match_trace A C base sources τ = Except.ok (rs, b, al, cd)) :
    recursive_match A C base sources τ = Except.ok (rs, b) := by
  obtain ⟨st, hf, hb, hal, hcd, keyed, hm, hrs⟩ := trace_run_ok A C base sources τ rs b al cd h
  have hproj := foldlM_sources_proj A C τ sources ⟨[], base, [], [], []⟩
  rw [hf, except_map_ok] at hproj
  have hproj2 : List.foldlM (processSource A C τ) ⟨[], base, []⟩ sources = Except.ok st.proj := by
    rw [show (⟨[], base, []⟩ : OrchState) =
        (⟨[], base, [], [], []⟩ : TState).proj from rfl]
    exact hproj.symm
  unfold recursive_match
  rw [hproj2, except_bind_ok]
  rw [show (TState.proj st).results = st.results from rfl, hm, except_bind_ok]
  rw [hrs, show (TState.proj st).base = st.base from rfl, hb]
  rfl

/-- Characterization of a successful plain run. -/
theorem plain_run_ok (A : List String → List String → List (String × String))
    (C : PyDict → PyDict → PyDict) (base : PyDict) (sources : List SrcData) (τ : Rat)
    (rs : List PyDict) (b : PyDict)
    (h : recursive_match A C base sources τ = Except.ok (rs, b)) :
    ∃ st : OrchState, sources.foldlM (processSource A C τ) ⟨[], base, []⟩ = Except.ok st ∧
      st.base = b ∧
      ∃ keyed, st.results.mapM (fun r => do
          let q ← sortKeyOf r
          pure (q, r)) = Except.ok keyed ∧
        rs = (sortDescIns keyed).map (fun x => x.2) := by
  unfold recursive_match at h
  cases hf : sources.foldlM (processSource A C τ) ⟨[], base, []⟩ with
  | error e => rw [hf, except_bind_error] at h; cases h
  | ok st =>
    rw [hf, except_bind_ok] at h
    cases hm : st.results.mapM (fun r => do
        let q ← sortKeyOf r
        pure (q, r)) with
    | error e => rw [hm, except_bind_error] at h; cases h
    | ok keyed =>
      rw [hm, except_bind_ok] at h
      have h' := Except.ok.inj h
      refine ⟨st, rfl, ?_, keyed, hm, ?_⟩
      · exact congrArg (fun x => x.2) h'
      · exact (congrArg (fun x => x.1) h').symm

/-- Characterization of a successful run of the full-profile variant. -/
theorem full_run_ok (A : List String → List String → List (String × String))
    (C : PyDict → PyDict → PyDict) (base : PyDict) (sources : List SrcData) (τ : Rat)
    (rs : List PyDict) (b : PyDict)
    (h : recursive_match_with_full_profiles A C base sources τ = Except.ok (rs, b)) :
    ∃ st : OrchState, sources.foldlM (processSourceFull A C τ) ⟨[], base, []⟩ = Except.ok st ∧
      st.base = b ∧
      ∃ keyed, st.results.mapM (fun r => do
          let q ← sortKeyOf r
          pure (q, r)) = Except.ok keyed ∧
        rs = (sortDescIns keyed).map (fun x => x.2) := by
  unfold recursive_match_with_full_profiles at h
  cases hf : sources.foldlM (processSourceFull A C τ) ⟨[], base, []⟩ with
  | error e => rw [hf, except_bind_error] at h; cases h
  | ok st =>
    rw [hf, except_bind_ok] at h
    cases hm : st.results.mapM (fun r => do
        let q ← sortKeyOf r
        pure (q, r)) with
    | error e => rw [hm, except_bind_error] at h; cases h
    | ok keyed =>
      rw [hm, except_bind_ok] at h
      have h' := Except.ok.inj h
      refine ⟨st, rfl, ?_, keyed, hm, ?_⟩
      · exact congrArg (fun x => x.2) h'
      · exact (congrArg (fun x => x.1) h').symm

/-- One candidate step never overwrites a non-empty base field. -/
theorem processProfile_preserves (C : PyDict → PyDict → PyDict) (τ : Rat)
    (n : String) (m : List (String × String)) (st : OrchState) (p : PyDict)
    (st' : OrchState) (h : processProfile C τ n m st p = Except.ok st')
    (k : String) (v : PyVal) (hb : dictGet st.base k = some v)
    (hne : isEmptyVal v = false) : dictGet st'.base k = some v := by
  unfold processProfile at h
  cases hs : scoreOfRes (C st.base (normalizeProfile m p)) with
  | error e => simp only [hs] at h; cases h
  | ok score =>
    simp only [hs] at h
    by_cases hτ : τ ≤ score
    · rw [if_pos hτ] at h
      cases h
      exact enrich_preserves _ _ _ _ hb hne
    · rw [if_neg hτ] at h
      cases h
      exact hb

/-- One candidate step of the full-profile variant never overwrites a
non-empty base field. -/
theorem processProfileFull_preserves (C : PyDict → PyDict → PyDict) (τ : Rat)
    (n : String) (m : List (String × String)) (st : OrchState) (p : PyDict)
    (st' : OrchState) (h : processProfileFull C τ n m st p = Except.ok st')
    (k : String) (v : PyVal) (hb : dictGet st.base k = some v)
    (hne : isEmptyVal v = false) : dictGet st'.base k = some v := by
  unfold processProfileFull at h
  cases hs : scoreOfRes (C st.base (normalizeProfile m p)) with
  | error e => simp only [hs] at h; cases h
  | ok score =>
    simp only [hs] at h
    by_cases hτ : τ ≤ score
    · rw [if_pos hτ] at h
      cases h
      exact enrich_preserves _ _ _ _ hb hne
    · rw [if_neg hτ] at h
      cases h
      exact hb

/-- One source never overwrites a non-empty base field. -/
theorem processSource_preserves (A : List String → List String → List (String × String))
    (C : PyDict → PyDict → PyDict) (τ : Rat) (st : OrchState) (src : SrcData)
    (st' : OrchState) (h : processSource A C τ st src = Except.ok st')
    (k : String) (v : PyVal) (hb : dictGet st.base k = some v)
    (hne : isEmptyVal v = false) : dictGet st'.base k = some v := by
  unfold processSource at h
  exact foldlM_ok_invariant _ (fun s => dictGet s.base k = some v) _ _ _ h hb
    (fun b a b' _ hP hstep => processProfile_preserves _ _ _ _ _ _ _ hstep k v hP hne)

/-- One source of the full-profile variant never overwrites a non-empty base
field. -/
theorem processSourceFull_preserves (A : List String → List String → List (String × String))
    (C : PyDict → PyDict → PyDict) (τ : Rat) (st : OrchState) (src : SrcData)
    (st' : OrchState) (h : processSourceFull A C τ st src = Except.ok st')
    (k : String) (v : PyVal) (hb : dictGet st.base k = some v)
    (hne : isEmptyVal v = false) : dictGet st'.base k = some v := by
  unfold processSourceFull at h
  exact foldlM_ok_invariant _ (fun s => dictGet s.base k = some v) _ _ _ h hb
    (fun b a b' _ hP hstep => processProfileFull_preserves _ _ _ _ _ _ _ hstep k v hP hne)

/-!
Concrete fixtures used by the witnesses: one deterministic aligner and
comparator, a two-row source, and a base profile with one empty field.
-/

/-- Witness aligner: maps `full_name` to `name` and `mail` to `email`,
leaving `addr` unmapped. -/
def wAlign : List String → List String → List (String × String) :=
  fun _ _ => [("full_name", "name"), ("mail", "email")]

/-- Witness comparator: score 9/10 for candidates named John, else 1/10. -/
def wCompare : PyDict → PyDict → PyDict :=
  fun _ cand =>
    match dictGet cand "name" with
    | some (PyVal.str s) =>
      if s == "John" then
        [("score", PyVal.num (9/10)), ("reason", PyVal.str "ok")]
      else
        [("score", PyVal.num (1/10)), ("reason", PyVal.str "no")]
    | _ => [("score", PyVal.num (1/10)), ("reason", PyVal.str "no")]

/-- Witness base profile: a name and an empty email. -/
def wBase : PyDict := [("name", PyVal.str "John"), ("email", PyVal.str "")]

/-- Witness source with two rows; only the first matches. -/
def wSrc : SrcData :=
  { name := "s1.csv",
    schema := ["full_name", "mail", "addr"],
    profiles := [[("full_name", PyVal.str " John "), ("mail", PyVal.str "j@x.com"),
                  ("addr", PyVal.str "NYC")],
                 [("full_name", PyVal.str "Alice")]] }

/-- Claim C1: for every run of either orchestrator, a base-profile field
holding a non-empty value at any intermediate point (after any prefix of
the sources) is never overwritten: it still holds the same value in the
final enriched profile. In particular a normalized field is written only
where the key is absent or empty. -/
theorem claim_C1_monotonic_enrichment
    (A : List String → List String → List (String × String))
    (C : PyDict → PyDict → PyDict) (base : PyDict) (τ : Rat) :
    (∀ pre post st1 k v rs bfinal,
      List.foldlM (processSource A C τ) ⟨[], base, []⟩ pre = Except.ok st1 →
      dictGet st1.base k = some v → isEmptyVal v = false →
      recursive_match A C base (pre ++ post) τ = Except.ok (rs, bfinal) →
      dictGet bfinal k = some v)
    ∧ (∀ pre post st1 k v rs bfinal,
      List.foldlM (processSourceFull A C τ) ⟨[], base, []⟩ pre = Except.ok st1 →
      dictGet st1.base k = some v → isEmptyVal v = false →
      recursive_match_with_full_profiles A C base (pre ++ post) τ = Except.ok (rs, bfinal) →
      dictGet bfinal k = some v) := by
  constructor
  · intro pre post st1 k v rs bfinal hpre hb hne hrun
    obtain ⟨st, hf, hbase, -⟩ := plain_run_ok A C base (pre ++ post) τ rs bfinal hrun
    obtain ⟨m, h1, h2⟩ := foldlM_append_ok _ pre post _ _ hf
    rw [hpre] at h1
    cases h1
    rw [← hbase]
    exact foldlM_ok_invariant _ (fun s => dictGet s.base k = some v) post _ _ h2 hb
      (fun b' a b'' _ hP hstep => processSource_preserves A C τ b' a b'' hstep k v hP hne)
  · intro pre post st1 k v rs bfinal hpre hb hne hrun
    obtain ⟨st, hf, hbase, -⟩ := full_run_ok A C base (pre ++ post) τ rs bfinal hrun
    obtain ⟨m, h1, h2⟩ := foldlM_append_ok _ pre post _ _ hf
    rw [hpre] at h1
    cases h1
    rw [← hbase]
    exact foldlM_ok_invariant _ (fun s => dictGet s.base k = some v) post _ _ h2 hb
      (fun b' a b'' _ hP hstep => processSourceFull_preserves A C τ b' a b'' hstep k v hP hne)

/-!
Invariants of the instrumented run.
-/

/-- Well-formedness of one recorded candidate: the normalized form comes
from the mapping, the recorded score is the one computed from the response,
and emission is exactly the threshold test. -/
def candOk (τ : Rat) (t : CandTrace) : Prop :=
  t.normalized = normalizeProfile t.mapping t.row ∧
  scoreOfRes t.res = Except.ok t.scoreUsed ∧
  t.emitted = decide (τ ≤ t.scoreUsed)

/-- The sort key of a result agrees with the score used at the threshold
test whenever both are defined. -/
theorem sortKey_vs_score (r : PyDict) (s : Rat) (h : scoreOfRes r = Except.ok s) :
    ∀ q, sortKeyOf r = Except.ok q → q = s := by
  intro q hq
  unfold scoreOfRes at h
  unfold sortKeyOf at hq
  cases hg : dictGet r "score" with
  | none => rw [hg] at hq; cases hq
  | some v =>
    rw [hg] at h hq
    cases v with
    | num x => cases h; cases hq; rfl
    | bool b => cases h; cases hq; rfl
    | none => cases h
    | str s => cases h
    | list l => cases h
    | dict d => cases h

/-- Joint invariant of the instrumented fold state: recorded candidates are
well-formed, emitted results carry a score at or above the threshold, and the
result count equals the emitted-candidate count. -/
def stInv (τ : Rat) (st : TState) : Prop :=
  (∀ t ∈ st.cands, candOk τ t) ∧
  (∀ r ∈ st.results, ∀ q, sortKeyOf r = Except.ok q → τ ≤ q) ∧
  st.results.length = (st.cands.filter (fun t => t.emitted)).length

theorem processProfileT_inv (C : PyDict → PyDict → PyDict) (τ : Rat)
    (n : String) (m : List (String × String)) (st : TState) (p : PyDict)
    (st' : TState) (h : processProfileT C τ n m st p = Except.ok st')
    (hI : stInv τ st) : stInv τ st' := by
  unfold processProfileT at h
  cases hs : scoreOfRes (C st.base (normalizeProfile m p)) with
  | error e => simp only [hs] at h; cases h
  | ok score =>
    simp only [hs] at h
    by_cases hτ : τ ≤ score
    · rw [if_pos hτ] at h
      cases h
      refine ⟨?_, ?_, ?_⟩
      · intro t ht
        rcases List.mem_append.mp ht with ht' | ht'
        · exact hI.1 t ht'
        · rw [List.mem_singleton.mp ht']
          exact ⟨rfl, hs, rfl⟩
      · intro r hr q hq
        rcases List.mem_append.mp hr with hr' | hr'
        · exact hI.2.1 r hr' q hq
        · rw [List.mem_singleton.mp hr'] at hq
          have hsc : scoreOfRes (dictSet (dictSet (C st.base (normalizeProfile m p))
              "source" (PyVal.str n)) "candidate"
              (PyVal.dict (normalizeProfile m p))) = Except.ok score := by
            unfold scoreOfRes at hs ⊢
            rw [dictGet_dictSet_ne _ _ _ _ (by decide),
                dictGet_dictSet_ne _ _ _ _ (by decide)]
            exact hs
          rw [sortKey_vs_score _ _ hsc q hq]
          exact hτ
      · rw [List.length_append, List.filter_append, List.length_append, hI.2.2]
        have : (decide (τ ≤ score)) = true := by simp [hτ]
        simp [List.filter_cons, this]
    · rw [if_neg hτ] at h
      cases h
      refine ⟨?_, hI.2.1, ?_⟩
      · intro t ht
        rcases List.mem_append.mp ht with ht' | ht'
        · exact hI.1 t ht'
        · rw [List.mem_singleton.mp ht']
          exact ⟨rfl, hs, rfl⟩
      · rw [List.filter_append, List.length_append, hI.2.2]
        have : (decide (τ ≤ score)) = false := by simp [hτ]
        simp [List.filter_cons, this]

theorem processSourceT_inv (A : List String → List String → List (String × String))
    (C : PyDict → PyDict → PyDict) (τ : Rat) (st : TState) (src : SrcData)
    (st' : TState) (h : processSourceT A C τ st src = Except.ok st')
    (hI : stInv τ st) : stInv τ st' := by
  unfold processSourceT at h
  exact foldlM_ok_invariant _ (stInv τ) _ _ _ h ⟨hI.1, hI.2.1, hI.2.2⟩
    (fun b a b' _ hP hstep => processProfileT_inv C τ src.name _ b a b' hstep hP)

theorem trace_fold_inv (A : List String → List String → List (String × String))
    (C : PyDict → PyDict → PyDict) (τ : Rat) (sources : List SrcData)
    (base : PyDict) (st : TState)
    (h : sources.foldlM (processSourceT A C τ) ⟨[], base, [], [], []⟩ = Except.ok st) :
    stInv τ st := by
  exact foldlM_ok_invariant _ (stInv τ) _ _ _ h
    ⟨fun t ht => absurd ht (List.not_mem_nil t),
     fun r hr => absurd hr (List.not_mem_nil r), rfl⟩
    (fun b a b' _ hP hstep => processSourceT_inv A C τ b a b' hstep hP)

/-!
Membership lemmas for the stable sort and the keyed `mapM`.
-/

theorem mem_insertDesc (x y : Rat × PyDict) (l : List (Rat × PyDict)) :
    x ∈ insertDesc y l ↔ x = y ∨ x ∈ l := by
  induction l with
  | nil => simp [insertDesc]
  | cons z zs ih =>
    unfold insertDesc
    by_cases h : z.1 < y.1
    · simp [h]
    · simp only [h, if_false, List.mem_cons, ih]
      tauto

theorem mem_sortDescIns_aux (x : Rat × PyDict) (l : List (Rat × PyDict)) :
    ∀ acc, x ∈ l.foldl (fun acc y => insertDesc y acc) acc ↔ x ∈ acc ∨ x ∈ l := by
  induction l with
  | nil => intro acc; simp
  | cons y ys ih =>
    intro acc
    rw [List.foldl_cons, ih, mem_insertDesc]
    simp only [List.mem_cons]
    tauto

theorem mem_sortDescIns (x : Rat × PyDict) (l : List (Rat × PyDict)) :
    x ∈ sortDescIns l ↔ x ∈ l := by
  unfold sortDescIns
  rw [mem_sortDescIns_aux]
  simp

theorem mapM_keyed_mem (l : List PyDict) (keyed : List (Rat × PyDict))
    (h : l.mapM (fun r => do
        let q ← sortKeyOf r
        pure (q, r)) = Except.ok keyed) :
    ∀ x ∈ keyed, x.2 ∈ l ∧ sortKeyOf x.2 = Except.ok x.1 := by
  induction l generalizing keyed with
  | nil =>
    rw [List.mapM_nil] at h
    cases h
    intro x hx
    cases hx
  | cons r l ih =>
    rw [List.mapM_cons] at h
    cases hk : sortKeyOf r with
    | error e => rw [hk, except_bind_error] at h; cases h
    | ok q =>
      rw [hk, except_bind_ok, except_pure_bind] at h
      cases hm : l.mapM (fun r => do
          let q ← sortKeyOf r
          pure (q, r)) with
      | error e => rw [hm, except_bind_error] at h; cases h
      | ok ks =>
        rw [hm, except_bind_ok] at h
        cases h
        intro x hx
        rcases List.mem_cons.mp hx with hx' | hx'
        · rw [hx']
          exact ⟨List.mem_cons_self _ _, hk⟩
        · obtain ⟨h1, h2⟩ := ih ks hm x hx'
          exact ⟨List.mem_cons_of_mem _ h1, h2⟩

/-!
How the instrumented run records alignment requests.
-/

theorem processProfileT_aligns (C : PyDict → PyDict → PyDict) (τ : Rat)
    (n : String) (m : List (String × String)) (st : TState) (p : PyDict)
    (st' : TState) (h : processProfileT C τ n m st p = Except.ok st') :
    st'.aligns = st.aligns := by
  unfold processProfileT at h
  cases hs : scoreOfRes (C st.base (normalizeProfile m p)) with
  | error e => simp only [hs] at h; cases h
  | ok score =>
    simp only [hs] at h
    by_cases hτ : τ ≤ score
    · rw [if_pos hτ] at h; cases h; rfl
    · rw [if_neg hτ] at h; cases h; rfl

theorem foldProfiles_aligns (C : PyDict → PyDict → PyDict) (τ : Rat)
    (n : String) (m : List (String × String)) (l : List PyDict)
    (st st' : TState) (h : l.foldlM (processProfileT C τ n m) st = Except.ok st') :
    st'.aligns = st.aligns := by
  exact foldlM_ok_invariant _ (fun s => s.aligns = st.aligns) _ _ _ h rfl
    (fun b a b' _ hP hstep => (processProfileT_aligns C τ n m b a b' hstep).trans hP)

theorem processSourceT_aligns (A : List String → List String → List (String × String))
    (C : PyDict → PyDict → PyDict) (τ : Rat) (st : TState) (src : SrcData)
    (st' : TState) (h : processSourceT A C τ st src = Except.ok st') :
    st'.aligns = st.aligns ++ [⟨src.name, dictKeys st.base, (detect st.cache src).1,
      A (dictKeys st.base) ((detect st.cache src).1)⟩] := by
  unfold processSourceT at h
  exact foldProfiles_aligns _ _ _ _ _ _ _ h

theorem foldSources_aligns_mono (A : List String → List String → List (String × String))
    (C : PyDict → PyDict → PyDict) (τ : Rat) (l : List SrcData) (st st' : TState)
    (h : l.foldlM (processSourceT A C τ) st = Except.ok st') :
    ∃ suf, st'.aligns = st.aligns ++ suf := by
  refine foldlM_ok_invariant _ (fun s => ∃ suf, s.aligns = st.aligns ++ suf) _ _ _ h
    ⟨[], by simp⟩ ?_
  intro b a b' _ hP hstep
  obtain ⟨suf, hsuf⟩ := hP
  refine ⟨suf ++ [⟨a.name, dictKeys b.base, (detect b.cache a).1,
    A (dictKeys b.base) ((detect b.cache a).1)⟩], ?_⟩
  rw [processSourceT_aligns A C τ b a b' hstep, hsuf, List.append_assoc]

theorem foldSources_aligns_len (A : List String → List String → List (String × String))
    (C : PyDict → PyDict → PyDict) (τ : Rat) (l : List SrcData) :
    ∀ st st', l.foldlM (processSourceT A C τ) st = Except.ok st' →
      st'.aligns.length = st.aligns.length + l.length := by
  induction l with
  | nil =>
    intro st st' h
    simp only [List.foldlM_nil] at h
    cases h
    simp
  | cons src l ih =>
    intro st st' h
    rw [List.foldlM_cons] at h
    cases hstep : processSourceT A C τ st src with
    | error e => rw [hstep, except_bind_error] at h; cases h
    | ok st1 =>
      rw [hstep, except_bind_ok] at h
      have h1 := processSourceT_aligns A C τ st src st1 hstep
      have h2 := ih st1 st' h
      rw [h2, h1, List.length_append]
      simp only [List.length_cons, List.length_nil]
      omega

/-- Claim C2: in a run with threshold τ, a result is emitted for a candidate
exactly when the score used for it satisfies `score ≥ τ`; every emitted
result carries a sort-key score at or above τ; for τ = 0 every candidate
whose response parses to a numeric in-range score is emitted; for τ = 1.1
(given the comparator contract score ≤ 1) no result at all is produced.
The instrumented run is exactly the plain `recursive_match` run. -/
theorem claim_C2_threshold (A : List String → List String → List (String × String))
    (C : PyDict → PyDict → PyDict) (base : PyDict) (sources : List SrcData) (τ : Rat)
    (rs : List PyDict) (b : PyDict) (al : List AlignTrace) (cd : List CandTrace)
    (hrun : recursive_match_trace A C base sources τ = Except.ok (rs, b, al, cd)) :
    recursive_match A C base sources τ = Except.ok (rs, b) ∧
    (∀ t ∈ cd, t.emitted = decide (τ ≤ t.scoreUsed)) ∧
    (∀ r ∈ rs, ∃ q, sortKeyOf r = Except.ok q ∧ τ ≤ q) ∧
    (τ = 0 → ∀ t ∈ cd, ∀ q, dictGet t.res "score" = some (PyVal.num q) → 0 ≤ q →
      t.emitted = true) ∧
    ((11 : Rat)/10 ≤ τ → (∀ t ∈ cd, t.scoreUsed ≤ 1) → rs = []) := by
  obtain ⟨st, hf, hb, hal, hcd, keyed, hm, hrs⟩ :=
    trace_run_ok A C base sources τ rs b al cd hrun
  have hinv := trace_fold_inv A C τ sources base st hf
  refine ⟨trace_to_plain A C base sources τ rs b al cd hrun, ?_, ?_, ?_, ?_⟩
  · intro t ht
    exact (hinv.1 t (by rw [hcd]; exact ht)).2.2
  · intro r hr
    rw [hrs] at hr
    obtain ⟨x, hx, hx2⟩ := List.mem_map.mp hr
    have hxk : x ∈ keyed := (mem_sortDescIns x keyed).mp hx
    obtain ⟨hmem, hkey⟩ := mapM_keyed_mem st.results keyed hm x hxk
    refine ⟨x.1, by rw [← hx2]; exact hkey, ?_⟩
    exact hinv.2.1 x.2 hmem x.1 hkey
  · intro h0 t ht q hq hq0
    have hc := hinv.1 t (by rw [hcd]; exact ht)
    have hsu : t.scoreUsed = q := by
      have := hc.2.1
      unfold scoreOfRes at this
      rw [hq] at this
      exact (Except.ok.inj this).symm
    rw [hc.2.2, hsu, h0]
    simp [hq0]
  · intro hτ hle
    have hnoem : ∀ t ∈ st.cands, t.emitted = false := by
      intro t ht
      have hc := hinv.1 t ht
      rw [hc.2.2]
      have : ¬ (τ ≤ t.scoreUsed) := by
        intro hcon
        have h1 : (11 : Rat)/10 ≤ 1 :=
          le_trans hτ (le_trans hcon (hle t (by rw [← hcd]; exact ht)))
        norm_num at h1
      simp [this]
    have hfilter : st.cands.filter (fun t => t.emitted) = [] :=
      List.filter_eq_nil_iff.mpr (fun t ht => by rw [hnoem t ht]; simp)
    have hlen : st.results.length = 0 := by rw [hinv.2.2, hfilter]; rfl
    have hres : st.results = [] := List.length_eq_zero.mp hlen
    rw [hres, List.mapM_nil] at hm
    cases hm
    rw [hrs]
    rfl

/-- Claim C10: when the comparison response parses to an object with no
`score` key, the orchestrator uses 0 as the score, so the candidate is
rejected under any strictly positive threshold. -/
theorem claim_C10_default_score (A : List String → List String → List (String × String))
    (C : PyDict → PyDict → PyDict) (base : PyDict) (sources : List SrcData) (τ : Rat)
    (rs : List PyDict) (b : PyDict) (al : List AlignTrace) (cd : List CandTrace)
    (hrun : recursive_match_trace A C base sources τ = Except.ok (rs, b, al, cd)) :
    ∀ t ∈ cd, dictGet t.res "score" = none →
      t.scoreUsed = 0 ∧ (0 < τ → t.emitted = false) := by
  obtain ⟨st, hf, hb, hal, hcd, keyed, hm, hrs⟩ :=
    trace_run_ok A C base sources τ rs b al cd hrun
  have hinv := trace_fold_inv A C τ sources base st hf
  intro t ht hnone
  have hc := hinv.1 t (by rw [hcd]; exact ht)
  have hsu : t.scoreUsed = 0 := by
    have := hc.2.1
    unfold scoreOfRes at this
    rw [hnone] at this
    exact (Except.ok.inj this).symm
  refine ⟨hsu, ?_⟩
  intro hpos
  rw [hc.2.2, hsu]
  simp [not_le.mpr hpos]

/-- Claim C8: a field name appears in a candidate's normalized form only if
it is a value of the alignment mapping in force for that source, and the
enrichment step can only change base fields that are values of that mapping. -/
theorem claim_C8_mapping_gating (A : List String → List String → List (String × String))
    (C : PyDict → PyDict → PyDict) (base : PyDict) (sources : List SrcData) (τ : Rat)
    (rs : List PyDict) (b : PyDict) (al : List AlignTrace) (cd : List CandTrace)
    (hrun : recursive_match_trace A C base sources τ = Except.ok (rs, b, al, cd)) :
    (∀ m p, ∀ k ∈ dictKeys (normalizeProfile m p), k ∈ m.map (fun kv => kv.2)) ∧
    (∀ t ∈ cd, t.normalized = normalizeProfile t.mapping t.row ∧
      (∀ k ∈ dictKeys t.normalized, k ∈ t.mapping.map (fun kv => kv.2)) ∧
      (∀ k, dictGet (enrich t.baseBefore t.normalized) k ≠ dictGet t.baseBefore k →
        k ∈ t.mapping.map (fun kv => kv.2))) := by
  obtain ⟨st, hf, hb, hal, hcd, keyed, hm, hrs⟩ :=
    trace_run_ok A C base sources τ rs b al cd hrun
  have hinv := trace_fold_inv A C τ sources base st hf
  refine ⟨fun m p => normalizeProfile_keys m p, ?_⟩
  intro t ht
  have hc := hinv.1 t (by rw [hcd]; exact ht)
  refine ⟨hc.1, ?_, ?_⟩
  · intro k hk
    rw [hc.1] at hk
    exact normalizeProfile_keys t.mapping t.row k hk
  · intro k hk
    by_contra hnot
    have hkn : k ∉ dictKeys t.normalized := by
      intro hmem
      rw [hc.1] at hmem
      exact hnot (normalizeProfile_keys t.mapping t.row k hmem)
    exact hk (enrich_not_mem t.normalized t.baseBefore k hkn)

/-- Claim C4: the run records one alignment request per source, in order,
and the base-field list of the request for the source at position `i` is
exactly the key list of the base profile as it stands after the plain
orchestrator has processed sources `1..i` (so enrichment from earlier
sources is part of every later alignment request). -/
theorem claim_C4_order_dependent (A : List String → List String → List (String × String))
    (C : PyDict → PyDict → PyDict) (base : PyDict) (sources : List SrcData) (τ : Rat)
    (rs : List PyDict) (b : PyDict) (al : List AlignTrace) (cd : List CandTrace)
    (hrun : recursive_match_trace A C base sources τ = Except.ok (rs, b, al, cd)) :
    al.length = sources.length ∧
    ∀ pre src post, sources = pre ++ src :: post →
      ∃ stI : OrchState,
        List.foldlM (processSource A C τ) ⟨[], base, []⟩ pre = Except.ok stI ∧
        ∃ pref suf,
          al = pref ++ (⟨src.name, dictKeys stI.base, (detect stI.cache src).1,
            A (dictKeys stI.base) ((detect stI.cache src).1)⟩ : AlignTrace) :: suf ∧
          pref.length = pre.length := by
  obtain ⟨st, hf, hb, hal, hcd, keyed, hm, hrs⟩ :=
    trace_run_ok A C base sources τ rs b al cd hrun
  constructor
  · have := foldSources_aligns_len A C τ sources ⟨[], base, [], [], []⟩ st hf
    rw [hal] at this
    simpa using this
  · intro pre src post hsplit
    rw [hsplit] at hf
    obtain ⟨stPre, h1, h2⟩ := foldlM_append_ok _ pre (src :: post) _ _ hf
    rw [List.foldlM_cons] at h2
    cases hstep : processSourceT A C τ stPre src with
    | error e => rw [hstep, except_bind_error] at h2; cases h2
    | ok stSrc =>
      rw [hstep, except_bind_ok] at h2
      have hproj := foldlM_sources_proj A C τ pre ⟨[], base, [], [], []⟩
      rw [h1, except_map_ok] at hproj
      refine ⟨stPre.proj, ?_, stPre.aligns, ?_⟩
      · rw [show (⟨[], base, []⟩ : OrchState) =
            (⟨[], base, [], [], []⟩ : TState).proj from rfl]
        exact hproj.symm
      · obtain ⟨suf, hsuf⟩ := foldSources_aligns_mono A C τ post stSrc st h2
        refine ⟨suf, ?_, ?_⟩
        · rw [← hal, hsuf, processSourceT_aligns A C τ stPre src stSrc hstep,
              List.append_assoc, List.singleton_append]
          rfl
        · have := foldSources_aligns_len A C τ pre ⟨[], base, [], [], []⟩ stPre h1
          simpa using this

/-!
Relating the two orchestrator variants (claim C9).
-/

/-- Remove the two keys the full-profile variant adds to each result. -/
def stripExtras (r : PyDict) : PyDict :=
  r.filter (fun kv => !(kv.1 == "full_profile") && !(kv.1 == "field_mapping"))

theorem stripExtras_get_ne (r : PyDict) (k : String)
    (h1 : k ≠ "full_profile") (h2 : k ≠ "field_mapping") :
    dictGet (stripExtras r) k = dictGet r k := by
  induction r with
  | nil => rfl
  | cons a r ih =>
    unfold stripExtras at ih ⊢
    rw [List.filter_cons]
    by_cases hp : (!(a.1 == "full_profile") && !(a.1 == "field_mapping")) = true
    · rw [if_pos hp, dictGet_cons, dictGet_cons, ih]
    · rw [if_neg hp, dictGet_cons, ih]
      have hk : ¬ a.1 = k := by
        simp only [Bool.and_eq_true, Bool.not_eq_eq_eq_not, Bool.not_true, beq_eq_false_iff_ne,
          not_and, not_not] at hp
        by_cases hfp : a.1 = "full_profile"
        · rw [hfp]; exact Ne.symm h1
        · rw [hp hfp]; exact Ne.symm h2
      rw [if_neg hk]

theorem stripExtras_id (r : PyDict)
    (h1 : dictGet r "full_profile" = none) (h2 : dictGet r "field_mapping" = none) :
    stripExtras r = r := by
  induction r with
  | nil => rfl
  | cons a r ih =>
    rw [dictGet_cons] at h1 h2
    by_cases hfp : a.1 = "full_profile"
    · rw [if_pos hfp] at h1; cases h1
    · by_cases hfm : a.1 = "field_mapping"
      · rw [if_pos hfm] at h2; cases h2
      · rw [if_neg hfp] at h1
        rw [if_neg hfm] at h2
        unfold stripExtras at ih ⊢
        rw [List.filter_cons, if_pos (by simp [hfp, hfm]), ih h1 h2]

theorem stripExtras_append (r e : PyDict) :
    stripExtras (r ++ e) = stripExtras r ++ stripExtras e := by
  unfold stripExtras
  exact List.filter_append r e

/-- Setting a fresh key is an append. -/
theorem dictSet_fresh (d : PyDict) (k : String) (v : PyVal) (h : dictGet d k = none) :
    dictSet d k v = d ++ [(k, v)] := by
  unfold dictSet
  rw [if_neg (by rw [(dictGet_eq_none_iff d k).mp h]; simp)]

/-- The state relation between a plain run and a full-profile run: same
cache, same base, and the full results are the plain results with the two
extra keys appended. -/
def relFull (st1 st2 : OrchState) : Prop :=
  st2.cache = st1.cache ∧ st2.base = st1.base ∧
  st2.results.map stripExtras = st1.results ∧
  ∀ r ∈ st2.results, (dictGet r "full_profile").isSome ∧ (dictGet r "field_mapping").isSome

/-- Relation on run outcomes: equal errors, or related states. -/
def relExc (x1 x2 : Except String OrchState) : Prop :=
  match x1, x2 with
  | Except.error e1, Except.error e2 => e1 = e2
  | Except.ok s1, Except.ok s2 => relFull s1 s2
  | _, _ => False

theorem processProfile_rel (C : PyDict → PyDict → PyDict) (τ : Rat)
    (n : String) (m : List (String × String))
    (hC : ∀ bb cc, dictGet (C bb cc) "full_profile" = none ∧
      dictGet (C bb cc) "field_mapping" = none)
    (st1 st2 : OrchState) (hR : relFull st1 st2) (p : PyDict) :
    relExc (processProfile C τ n m st1 p) (processProfileFull C τ n m st2 p) := by
  unfold processProfile processProfileFull
  rw [hR.2.1]
  dsimp only
  cases hs : scoreOfRes (C st1.base (normalizeProfile m p)) with
  | error e => exact rfl
  | ok score =>
    dsimp only
    by_cases hτ : τ ≤ score
    · rw [if_pos hτ, if_pos hτ]
      have hres := hC st1.base (normalizeProfile m p)
      set res := C st1.base (normalizeProfile m p) with hresdef
      set res1 := dictSet (dictSet res "source" (PyVal.str n))
        "candidate" (PyVal.dict (normalizeProfile m p)) with hres1def
      have hfp1 : dictGet res1 "full_profile" = none := by
        rw [hres1def, dictGet_dictSet_ne _ _ _ _ (by decide),
            dictGet_dictSet_ne _ _ _ _ (by decide)]
        exact hres.1
      have hfm1 : dictGet res1 "field_mapping" = none := by
        rw [hres1def, dictGet_dictSet_ne _ _ _ _ (by decide),
            dictGet_dictSet_ne _ _ _ _ (by decide)]
        exact hres.2
      have hset1 : dictSet res1 "full_profile" (PyVal.dict p) = res1 ++ [("full_profile", PyVal.dict p)] :=
        dictSet_fresh res1 "full_profile" (PyVal.dict p) hfp1
      have hfm2 : dictGet (res1 ++ [("full_profile", PyVal.dict p)]) "field_mapping" = none := by
        rw [dictGet_append, hfm1]
        rfl
      have hset2 : dictSet (res1 ++ [("full_profile", PyVal.dict p)]) "field_mapping"
          (PyVal.dict (m.map (fun kv => (kv.1, PyVal.str kv.2))))
          = res1 ++ [("full_profile", PyVal.dict p),
              ("field_mapping", PyVal.dict (m.map (fun kv => (kv.1, PyVal.str kv.2))))] := by
        rw [dictSet_fresh _ _ _ hfm2, List.append_assoc]
        rfl
      refine ⟨hR.1, rfl, ?_, ?_⟩
      · rw [List.map_append, hR.2.2.1, hset1, hset2]
        have : stripExtras (res1 ++ [("full_profile", PyVal.dict p),
            ("field_mapping", PyVal.dict (m.map (fun kv => (kv.1, PyVal.str kv.2))))])
            = res1 := by
          rw [stripExtras_append, stripExtras_id res1 hfp1 hfm1]
          simp [stripExtras, List.filter]
        simp only [List.map_cons, List.map_nil, this]
      · intro r hr
        rcases List.mem_append.mp hr with hr' | hr'
        · exact hR.2.2.2 r hr'
        · rw [List.mem_singleton.mp hr', hset1, hset2]
          constructor
          · rw [dictGet_append, hfp1]
            rfl
          · rw [dictGet_append, hfm1]
            rfl
    · rw [if_neg hτ, if_neg hτ]
      exact hR

theorem foldProfiles_rel (C : PyDict → PyDict → PyDict) (τ : Rat)
    (n : String) (m : List (String × String))
    (hC : ∀ bb cc, dictGet (C bb cc) "full_profile" = none ∧
      dictGet (C bb cc) "field_mapping" = none) (l : List PyDict) :
    ∀ st1 st2, relFull st1 st2 →
      relExc (l.foldlM (processProfile C τ n m) st1)
             (l.foldlM (processProfileFull C τ n m) st2) := by
  induction l with
  | nil => intro st1 st2 hR; exact hR
  | cons p l ih =>
    intro st1 st2 hR
    rw [List.foldlM_cons, List.foldlM_cons]
    have hrel := processProfile_rel C τ n m hC st1 st2 hR p
    cases h1 : processProfile C τ n m st1 p with
    | error e =>
      cases h2 : processProfileFull C τ n m st2 p with
      | error e2 =>
        rw [h1, h2] at hrel
        cases hrel
        rw [except_bind_error, except_bind_error]
        exact rfl
      | ok s2 => rw [h1, h2] at hrel; cases hrel
    | ok s1 =>
      cases h2 : processProfileFull C τ n m st2 p with
      | error e2 => rw [h1, h2] at hrel; cases hrel
      | ok s2 =>
        rw [h1, h2] at hrel
        rw [except_bind_ok, except_bind_ok]
        exact ih s1 s2 hrel

theorem processSource_rel (A : List String → List String → List (String × String))
    (C : PyDict → PyDict → PyDict) (τ : Rat)
    (hC : ∀ bb cc, dictGet (C bb cc) "full_profile" = none ∧
      dictGet (C bb cc) "field_mapping" = none)
    (st1 st2 : OrchState) (hR : relFull st1 st2) (src : SrcData) :
    relExc (processSource A C τ st1 src) (processSourceFull A C τ st2 src) := by
  unfold processSource processSourceFull
  rw [hR.1, hR.2.1]
  exact foldProfiles_rel C τ src.name _ hC src.profiles
    ⟨(detect st1.cache src).2, st1.base, st1.results⟩
    ⟨(detect st1.cache src).2, st1.base, st2.results⟩
    ⟨rfl, rfl, hR.2.2.1, hR.2.2.2⟩

theorem foldSources_rel (A : List String → List String → List (String × String))
    (C : PyDict → PyDict → PyDict) (τ : Rat)
    (hC : ∀ bb cc, dictGet (C bb cc) "full_profile" = none ∧
      dictGet (C bb cc) "field_mapping" = none) (l : List SrcData) :
    ∀ st1 st2, relFull st1 st2 →
      relExc (l.foldlM (processSource A C τ) st1)
             (l.foldlM (processSourceFull A C τ) st2) := by
  induction l with
  | nil => intro st1 st2 hR; exact hR
  | cons src l ih =>
    intro st1 st2 hR
    rw [List.foldlM_cons, List.foldlM_cons]
    have hrel := processSource_rel A C τ hC st1 st2 hR src
    cases h1 : processSource A C τ st1 src with
    | error e =>
      cases h2 : processSourceFull A C τ st2 src with
      | error e2 =>
        rw [h1, h2] at hrel
        cases hrel
        rw [except_bind_error, except_bind_error]
        exact rfl
      | ok s2 => rw [h1, h2] at hrel; cases hrel
    | ok s1 =>
      cases h2 : processSourceFull A C τ st2 src with
      | error e2 => rw [h1, h2] at hrel; cases hrel
      | ok s2 =>
        rw [h1, h2] at hrel
        rw [except_bind_ok, except_bind_ok]
        exact ih s1 s2 hrel

theorem sortKeyOf_stripExtras (r : PyDict) : sortKeyOf (stripExtras r) = sortKeyOf r := by
  unfold sortKeyOf
  rw [stripExtras_get_ne r "score" (by decide) (by decide)]

theorem mapM_keyed_strip (l2 : List PyDict) :
    ((l2.map stripExtras).mapM (fun r => do
        let q ← sortKeyOf r
        pure (q, r)))
      = (l2.mapM (fun r => do
          let q ← sortKeyOf r
          pure (q, r))).map
          (List.map (fun x : Rat × PyDict => (x.1, stripExtras x.2))) := by
  induction l2 with
  | nil => rfl
  | cons r l ih =>
    rw [List.map_cons, List.mapM_cons, List.mapM_cons, sortKeyOf_stripExtras]
    cases hk : sortKeyOf r with
    | error e => simp only [except_bind_error, except_map_error]
    | ok q =>
      simp only [except_bind_ok, except_pure_bind, ih]
      cases hm : l.mapM (fun r => do
          let q ← sortKeyOf r
          pure (q, r)) with
      | error e => simp only [except_map_error, except_bind_error]
      | ok ks =>
        simp only [except_map_ok, except_bind_ok, except_pure_bind]
        rfl

theorem insertDesc_map_strip (x : Rat × PyDict) (l : List (Rat × PyDict)) :
    insertDesc (x.1, stripExtras x.2) (l.map (fun y : Rat × PyDict => (y.1, stripExtras y.2)))
      = (insertDesc x l).map (fun y : Rat × PyDict => (y.1, stripExtras y.2)) := by
  induction l with
  | nil => rfl
  | cons z zs ih =>
    rw [List.map_cons]
    unfold insertDesc
    dsimp only
    by_cases h : z.1 < x.1
    · simp only [h, if_true]
      rfl
    · simp only [h, if_false]
      rw [List.map_cons, ← ih]

theorem sortDescIns_map_strip_aux (l : List (Rat × PyDict)) :
    ∀ acc, (l.map (fun y : Rat × PyDict => (y.1, stripExtras y.2))).foldl
        (fun acc x => insertDesc x acc)
        (acc.map (fun y : Rat × PyDict => (y.1, stripExtras y.2)))
      = (l.foldl (fun acc x => insertDesc x acc) acc).map
          (fun y : Rat × PyDict => (y.1, stripExtras y.2)) := by
  induction l with
  | nil => intro acc; rfl
  | cons x xs ih =>
    intro acc
    rw [List.map_cons, List.foldl_cons, List.foldl_cons, ← ih (insertDesc x acc),
        insertDesc_map_strip]

theorem sortDescIns_map_strip (l : List (Rat × PyDict)) :
    sortDescIns (l.map (fun y : Rat × PyDict => (y.1, stripExtras y.2)))
      = (sortDescIns l).map (fun y : Rat × PyDict => (y.1, stripExtras y.2)) := by
  unfold sortDescIns
  exact sortDescIns_map_strip_aux l []

/-- Claim C9: under the documented response shape (no `full_profile` or
`field_mapping` key in a comparison response), the full-profile variant
fails exactly when the plain orchestrator fails, and on success produces the
same final base profile and the same results in the same order, each result
differing only by the two additional keys `full_profile` and
`field_mapping`: removing them recovers the plain run's results verbatim,
and both keys are present in every emitted result. -/
theorem claim_C9_variant_equiv (A : List String → List String → List (String × String))
    (C : PyDict → PyDict → PyDict) (base : PyDict) (sources : List SrcData) (τ : Rat)
    (hC : ∀ bb cc, dictGet (C bb cc) "full_profile" = none ∧
      dictGet (C bb cc) "field_mapping" = none) :
    (∀ e, recursive_match_with_full_profiles A C base sources τ = Except.error e ↔
          recursive_match A C base sources τ = Except.error e) ∧
    (∀ rs2 b2, recursive_match_with_full_profiles A C base sources τ = Except.ok (rs2, b2) →
      recursive_match A C base sources τ = Except.ok (rs2.map stripExtras, b2) ∧
      ∀ r ∈ rs2, (dictGet r "full_profile").isSome ∧ (dictGet r "field_mapping").isSome) := by
  have hrel := foldSources_rel A C τ hC sources ⟨[], base, []⟩ ⟨[], base, []⟩
    ⟨rfl, rfl, rfl, fun r hr => absurd hr (List.not_mem_nil r)⟩
  cases h1 : sources.foldlM (processSource A C τ) ⟨[], base, []⟩ with
  | error e0 =>
    cases h2 : sources.foldlM (processSourceFull A C τ) ⟨[], base, []⟩ with
    | error e2 =>
      rw [h1, h2] at hrel
      have he : e0 = e2 := hrel
      cases he
      have r1 : recursive_match A C base sources τ = Except.error e0 := by
        unfold recursive_match
        rw [h1, except_bind_error]
      have r2 : recursive_match_with_full_profiles A C base sources τ = Except.error e0 := by
        unfold recursive_match_with_full_profiles
        rw [h2, except_bind_error]
      rw [r1, r2]
      exact ⟨fun e => Iff.rfl, fun rs2 b2 h => Except.noConfusion h⟩
    | ok s2 => rw [h1, h2] at hrel; cases hrel
  | ok s1 =>
    cases h2 : sources.foldlM (processSourceFull A C τ) ⟨[], base, []⟩ with
    | error e2 => rw [h1, h2] at hrel; cases hrel
    | ok s2 =>
      rw [h1, h2] at hrel
      have hmap := mapM_keyed_strip s2.results
      rw [hrel.2.2.1] at hmap
      cases hm2 : s2.results.mapM (fun r => do
          let q ← sortKeyOf r
          pure (q, r)) with
      | error e =>
        rw [hm2, except_map_error] at hmap
        have r1 : recursive_match A C base sources τ = Except.error e := by
          unfold recursive_match
          rw [h1, except_bind_ok, hmap, except_bind_error]
        have r2 : recursive_match_with_full_profiles A C base sources τ = Except.error e := by
          unfold recursive_match_with_full_profiles
          rw [h2, except_bind_ok, hm2, except_bind_error]
        rw [r1, r2]
        exact ⟨fun e1 => Iff.rfl, fun rs2 b2 h => Except.noConfusion h⟩
      | ok keyed2 =>
        rw [hm2, except_map_ok] at hmap
        have r1 : recursive_match A C base sources τ = Except.ok
            (((sortDescIns (keyed2.map (fun x : Rat × PyDict => (x.1, stripExtras x.2)))).map
              (fun x => x.2)), s1.base) := by
          unfold recursive_match
          rw [h1, except_bind_ok, hmap, except_bind_ok]
          rfl
        have r2 : recursive_match_with_full_profiles A C base sources τ = Except.ok
            (((sortDescIns keyed2).map (fun x => x.2)), s2.base) := by
          unfold recursive_match_with_full_profiles
          rw [h2, except_bind_ok, hm2, except_bind_ok]
          rfl
        rw [r1, r2]
        constructor
        · intro e
          exact ⟨fun h => Except.noConfusion h, fun h => Except.noConfusion h⟩
        · intro rs2 b2 h
          have h' := Except.ok.inj h
          have hrs2 : rs2 = (sortDescIns keyed2).map (fun x => x.2) :=
            (congrArg (fun x => x.1) h').symm
          have hb2 : b2 = s2.base := (congrArg (fun x => x.2) h').symm
          constructor
          · rw [hrs2, hb2, hrel.2.1, sortDescIns_map_strip, List.map_map, List.map_map]
            rfl
          · intro r hr
            rw [hrs2] at hr
            obtain ⟨x, hx, hx2⟩ := List.mem_map.mp hr
            have hxk : x ∈ keyed2 := (mem_sortDescIns x keyed2).mp hx
            obtain ⟨hmem, -⟩ := mapM_keyed_mem s2.results keyed2 hm2 x hxk
            rw [← hx2]
            exact hrel.2.2.2 x.2 hmem

theorem find?_append_of_none {α : Type} (p : α → Bool) (l l' : List α)
    (h : l.find? p = none) : (l ++ l').find? p = l'.find? p := by
  induction l with
  | nil => rfl
  | cons a l ih =>
    cases hp : p a with
    | true => rw [List.find?_cons_of_pos l hp] at h; cases h
    | false =>
      rw [List.find?_cons_of_neg l (by simp [hp])] at h
      rw [List.cons_append, List.find?_cons_of_neg _ (by simp [hp])]
      exact ih h

/-- Claim C7: `detect` is memoized by source name. A second `detect` call
for a source with the same name returns exactly the schema the first call
returned, even when the second source's `infer_schema` result differs; and
when the name is not yet cached, the first call returns the source's own
inferred schema. -/
theorem claim_C7_cache_idempotence (c0 : Cache) (s1 s2 : SrcData)
    (hname : s2.name = s1.name) :
    (detect (detect c0 s1).2 s2).1 = (detect c0 s1).1 ∧
    (c0.find? (fun kv => kv.1 == s1.name) = none → (detect c0 s1).1 = s1.schema) := by
  constructor
  · unfold detect
    cases hf : c0.find? (fun kv => kv.1 == s1.name) with
    | some kv =>
      simp only [hf]
      rw [show (fun kv : String × List String => kv.1 == s2.name)
          = (fun kv : String × List String => kv.1 == s1.name) by rw [hname], hf]
    | none =>
      simp only [hf]
      rw [show (fun kv : String × List String => kv.1 == s2.name)
          = (fun kv : String × List String => kv.1 == s1.name) by rw [hname],
        find?_append_of_none _ _ _ hf,
        List.find?_cons_of_pos _ (by simp)]
  · intro h
    unfold detect
    rw [h]

/-- Claim C5: the aligner's response handling is exactly the spec's pipeline
(a) fenced extraction else trimmed whole response, (b) strict JSON parse,
(c) permissive literal fallback, (d) empty mapping on total failure — and it
is a total function of the response (never raises). The conjuncts exercise
the pipeline end to end: a fenced response, a bare response, a single-quoted
response recovered by the permissive fallback, and a garbage response. -/
theorem claim_C5_align_fail_open :
    (∀ resp, SchemaDetectorAgent.alignParse resp = SchemaDetectorAgent.alignSpecParse resp) ∧
    SchemaDetectorAgent.alignParse "\x60\x60\x60json\n\x7b\"dob\": \"birth_date\"\x7d\n\x60\x60\x60"
      = PyVal.dict [("dob", PyVal.str "birth_date")] ∧
    SchemaDetectorAgent.alignParse "  \x7b\"a\": \"b\"\x7d  "
      = PyVal.dict [("a", PyVal.str "b")] ∧
    SchemaDetectorAgent.alignParse "\x7b\x27dob\x27: \x27birth_date\x27\x7d"
      = PyVal.dict [("dob", PyVal.str "birth_date")] ∧
    SchemaDetectorAgent.alignParse "no mapping here" = PyVal.dict [] := by
  refine ⟨?_, rfl, rfl, rfl, rfl⟩
  intro resp
  unfold SchemaDetectorAgent.alignParse SchemaDetectorAgent.alignSpecParse
  dsimp only
  cases jsonLoads (extractJsonStr resp) with
  | some v => rfl
  | none =>
    cases pyLiteralEval (extractJsonStr resp) with
    | some v => rfl
    | none => rfl

/-- The single-quoted response on which the comparator and the aligner
diverge: the aligner's permissive fallback parses it, the comparator's
strict-only parse does not. -/
def c3resp : String := "\x7b\x27score\x27: 0.5, \x27reason\x27: \x27ok\x27\x7d"

/-- Observable separating the two parses: the numeric `score` field of a
parsed object. -/
def scoreFieldOf (v : PyVal) : Option Rat :=
  match v with
  | PyVal.dict d =>
    match dictGet d "score" with
    | some (PyVal.num q) => some q
    | _ => none
  | _ => none

/-- Counterexample to claim C3 as stated: on a single-quoted response the
comparator does NOT apply the aligner's permissive literal parse — it falls
back to `{"score": 0.0, "reason": <raw>}` where the claimed pipeline
(`compareClaimParse`, the aligner strategy with the comparator default)
would have parsed score 0.5. -/
theorem claim_C3_counterexample :
    ProfileMatchingAgent.compareParse c3resp
      = PyVal.dict [("score", PyVal.num 0), ("reason", PyVal.str c3resp)] ∧
    ProfileMatchingAgent.compareClaimParse c3resp
      = PyVal.dict [("score", PyVal.num (1/2)), ("reason", PyVal.str "ok")] ∧
    ProfileMatchingAgent.compareParse c3resp ≠ ProfileMatchingAgent.compareClaimParse c3resp := by
  refine ⟨rfl, by with_unfolding_all rfl, ?_⟩
  intro h
  exact absurd (congrArg scoreFieldOf h) (by with_unfolding_all decide)

/-- Claim C3 as amended: the comparator shares the aligner's fenced-JSON
extraction and strict JSON parse, but has no permissive literal fallback;
on any parse failure it returns `{"score": 0.0, "reason": <raw response>}`,
and it is a total function of the response (never raises). -/
theorem claim_C3_amended :
    (∀ resp, ProfileMatchingAgent.compareParse resp
      = ProfileMatchingAgent.compareAmendedParse resp) ∧
    ProfileMatchingAgent.compareParse
        "\x60\x60\x60json\n\x7b\"score\": 0.9, \"reason\": \"m\"\x7d\n\x60\x60\x60"
      = PyVal.dict [("score", PyVal.num (9/10)), ("reason", PyVal.str "m")] ∧
    ProfileMatchingAgent.compareParse "not json"
      = PyVal.dict [("score", PyVal.num 0), ("reason", PyVal.str "not json")] := by
  refine ⟨?_, by with_unfolding_all rfl, rfl⟩
  intro resp
  unfold ProfileMatchingAgent.compareParse ProfileMatchingAgent.compareAmendedParse
  dsimp only
  cases jsonLoads (extractJsonStr resp) with
  | some v => rfl
  | none => rfl

/-!
CSV claims (C6).
-/

theorem dictGet_eq_none_iff_keys (d : PyDict) (k : String) :
    dictGet d k = none ↔ k ∉ dictKeys d := by
  induction d with
  | nil => simp [dictGet_nil, dictKeys]
  | cons a d ih =>
    rw [dictGet_cons, dictKeys_cons]
    by_cases h : a.1 = k
    · simp [h]
    · simp [h, ih, Ne.symm h]

theorem foldl_zip_fresh (pairs : List (String × String)) :
    ∀ d : PyDict, (∀ kv ∈ pairs, dictGet d kv.1 = none) → (pairs.map Prod.fst).Nodup →
      pairs.foldl (fun d kc => dictSet d kc.1 (PyVal.str kc.2)) d
        = d ++ pairs.map (fun kc => (kc.1, PyVal.str kc.2)) := by
  induction pairs with
  | nil => intro d _ _; simp
  | cons a pairs ih =>
    intro d hfresh hnd
    rw [List.foldl_cons, dictSet_fresh d a.1 (PyVal.str a.2) (hfresh a (List.mem_cons_self _ _))]
    have hnd' : (a.1 :: pairs.map Prod.fst).Nodup := hnd
    rw [ih (d ++ [(a.1, PyVal.str a.2)]) ?_ (List.nodup_cons.mp hnd').2]
    · rw [List.append_assoc]
      rfl
    · intro kv hkv
      rw [dictGet_append, (hfresh kv (List.mem_cons_of_mem _ hkv))]
      rw [dictGet_cons, if_neg ?_, dictGet_nil]
      intro hc
      refine (List.nodup_cons.mp hnd').1 ?_
      rw [show a.1 = kv.1 from hc]
      exact List.mem_map_of_mem Prod.fst hkv

theorem foldl_none_fresh (ks : List String) :
    ∀ d : PyDict, (∀ k ∈ ks, dictGet d k = none) → ks.Nodup →
      ks.foldl (fun d k => dictSet d k PyVal.none) d
        = d ++ ks.map (fun k => (k, PyVal.none)) := by
  induction ks with
  | nil => intro d _ _; simp
  | cons a ks ih =>
    intro d hfresh hnd
    rw [List.foldl_cons, dictSet_fresh d a PyVal.none (hfresh a (List.mem_cons_self _ _))]
    rw [ih (d ++ [(a, PyVal.none)]) ?_ (List.nodup_cons.mp hnd).2]
    · rw [List.append_assoc]
      rfl
    · intro k hk
      rw [dictGet_append, (hfresh k (List.mem_cons_of_mem _ hk))]
      rw [dictGet_cons, if_neg ?_, dictGet_nil]
      intro hc
      refine (List.nodup_cons.mp hnd).1 ?_
      rw [show a = k from hc]
      exact hk

theorem map_fst_zip_eq_take {α β : Type} (l1 : List α) (l2 : List β) :
    (List.zip l1 l2).map Prod.fst = l1.take l2.length := by
  induction l1 generalizing l2 with
  | nil => simp
  | cons a l1 ih =>
    cases l2 with
    | nil => simp
    | cons b l2 => simp [List.zip_cons_cons, ih]

/-- With a duplicate-free header, a `DictReader` row dict is exactly the
zipped cells (as strings) followed by the missing trailing fieldnames bound
to null. -/
theorem dictReaderRow_eq (fns row : List String) (hnd : fns.Nodup) :
    dictReaderRow fns row
      = (fns.zip row).map (fun kc => (kc.1, PyVal.str kc.2))
        ++ (fns.drop row.length).map (fun k => (k, PyVal.none)) := by
  unfold dictReaderRow
  have hzk : (fns.zip row).map Prod.fst = fns.take row.length :=
    map_fst_zip_eq_take fns row
  have hndz : ((fns.zip row).map Prod.fst).Nodup := by
    rw [hzk]
    exact hnd.sublist (List.take_sublist _ _)
  rw [foldl_zip_fresh (fns.zip row) [] (fun kv _ => rfl) hndz]
  have hdisj : ∀ k ∈ fns.drop row.length, k ∉ fns.take row.length := by
    have hsplit : fns.take row.length ++ fns.drop row.length = fns :=
      List.take_append_drop _ _
    have : (fns.take row.length ++ fns.drop row.length).Nodup := by rw [hsplit]; exact hnd
    intro k hk hkt
    exact (List.nodup_append.mp this).2.2 hkt hk
  rw [foldl_none_fresh (fns.drop row.length) _ ?_ (hnd.sublist (List.drop_sublist _ _))]
  · rfl
  · intro k hk
    rw [List.nil_append, dictGet_eq_none_iff_keys]
    intro hmem
    have : dictKeys ((fns.zip row).map (fun kc => (kc.1, PyVal.str kc.2)))
        = fns.take row.length := by
      unfold dictKeys
      rw [List.map_map]
      exact hzk
    rw [this] at hmem
    exact hdisj k hk hmem

/-- The CSV source used in the counterexample: three header fields, one data
row with a missing trailing cell. -/
def c6src : CSVSource := ⟨"s", "a,b,c\n1,2"⟩

/-- Counterexample to claim C6 as stated: for a data row with a missing
trailing cell, the profile does NOT omit the trailing field — the key `c`
is present and bound to `None` (the `DictReader` `restval`), which is also
not a string. -/
theorem claim_C6_counterexample :
    CSVSource.infer_schema c6src = ["a", "b", "c"] ∧
    CSVSource.get_profiles c6src
      = [[("a", PyVal.str "1"), ("b", PyVal.str "2"), ("c", PyVal.none)]] ∧
    ¬ ("c" ∉ dictKeys [("a", PyVal.str "1"), ("b", PyVal.str "2"), ("c", PyVal.none)]) ∧
    dictGet [("a", PyVal.str "1"), ("b", PyVal.str "2"), ("c", PyVal.none)] "c"
      = some PyVal.none := by
  refine ⟨by with_unfolding_all rfl, by with_unfolding_all rfl, ?_, rfl⟩
  intro h
  exact h (by decide)

/-- Claim C6 as amended: for a CSV text whose header row has distinct field
names and whose data rows are no longer than the header, `infer_schema`
returns the header fields in header order, and `get_profiles` returns one
profile per non-blank data row, holding the header fields zipped with the
row's cells as strings, followed by the missing trailing fields each bound
to null (present, not absent). Rows longer than the header are outside the
modelled dialect (`DictReader` would add a non-string `restkey` entry). -/
theorem claim_C6_tabular_shape (name s : String) (fns : List String)
    (rows : List (List String)) (hrows : csvRows s = fns :: rows) (hnd : fns.Nodup)
    (_hlen : ∀ r ∈ rows, r.length ≤ fns.length) :
    CSVSource.infer_schema ⟨name, s⟩ = fns ∧
    CSVSource.get_profiles ⟨name, s⟩
      = (rows.filter (fun r => !r.isEmpty)).map (fun r =>
          (fns.zip r).map (fun kc => (kc.1, PyVal.str kc.2))
          ++ (fns.drop r.length).map (fun k => (k, PyVal.none))) := by
  constructor
  · unfold CSVSource.infer_schema
    rw [hrows]
  · unfold CSVSource.get_profiles
    rw [hrows]
    exact List.map_congr_left (fun r hr => dictReaderRow_eq fns r hnd)

/-!
Concrete outcomes of the fixture runs, and the witnesses.
-/

/-- The single result the fixture run of `recursive_match` emits. -/
def wResult : PyDict :=
  [("score", PyVal.num (9/10)), ("reason", PyVal.str "ok"), ("source", PyVal.str "s1.csv"),
   ("candidate", PyVal.dict [("name", PyVal.str "John"), ("email", PyVal.str "j@x.com")])]

/-- The fixture run's final (enriched) base profile. -/
def wBFinal : PyDict := [("name", PyVal.str "John"), ("email", PyVal.str "j@x.com")]

/-- The single result of the fixture run of the full-profile variant. -/
def wFullResult : PyDict :=
  [("score", PyVal.num (9/10)), ("reason", PyVal.str "ok"), ("source", PyVal.str "s1.csv"),
   ("candidate", PyVal.dict [("name", PyVal.str "John"), ("email", PyVal.str "j@x.com")]),
   ("full_profile", PyVal.dict [("full_name", PyVal.str " John "), ("mail", PyVal.str "j@x.com"),
     ("addr", PyVal.str "NYC")]),
   ("field_mapping", PyVal.dict [("full_name", PyVal.str "name"), ("mail", PyVal.str "email")])]

/-- The fixture run's recorded alignment requests. -/
def wAligns : List AlignTrace :=
  [⟨"s1.csv", ["name", "email"], ["full_name", "mail", "addr"],
    [("full_name", "name"), ("mail", "email")]⟩]

/-- The fixture run's recorded candidates. -/
def wCands : List CandTrace :=
  [⟨"s1.csv",
    [("full_name", PyVal.str " John "), ("mail", PyVal.str "j@x.com"), ("addr", PyVal.str "NYC")],
    [("full_name", "name"), ("mail", "email")],
    [("name", PyVal.str "John"), ("email", PyVal.str "j@x.com")],
    wBase,
    [("score", PyVal.num (9/10)), ("reason", PyVal.str "ok")], 9/10, true⟩,
   ⟨"s1.csv",
    [("full_name", PyVal.str "Alice")],
    [("full_name", "name"), ("mail", "email")],
    [("name", PyVal.str "Alice")],
    wBFinal,
    [("score", PyVal.num (1/10)), ("reason", PyVal.str "no")], 1/10, false⟩]

/-- Witness for claim C1 at the fixture: the initially non-empty `name`
survives the plain run, and the `email` enriched while processing the first
source survives the remainder of the full-profile run. -/
theorem claim_C1_witness :
    dictGet wBFinal "name" = some (PyVal.str "John") ∧
    dictGet wBFinal "email" = some (PyVal.str "j@x.com") :=
  ⟨(claim_C1_monotonic_enrichment wAlign wCompare wBase (1/2)).1 [] [wSrc]
      ⟨[], wBase, []⟩ "name" (PyVal.str "John") [wResult] wBFinal rfl
      (by with_unfolding_all rfl) rfl (by with_unfolding_all rfl),
   (claim_C1_monotonic_enrichment wAlign wCompare wBase (1/2)).2 [wSrc] []
      ⟨[("s1.csv", ["full_name", "mail", "addr"])], wBFinal, [wFullResult]⟩ "email"
      (PyVal.str "j@x.com") [wFullResult] wBFinal (by with_unfolding_all rfl)
      (by with_unfolding_all rfl) rfl (by with_unfolding_all rfl)⟩

/-- Witness for claim C2 at the fixture: the instrumented run projects to
the plain run, whose only result is the 0.9-scoring candidate. -/
theorem claim_C2_witness :
    recursive_match wAlign wCompare wBase [wSrc] (1/2) = Except.ok ([wResult], wBFinal) :=
  (claim_C2_threshold wAlign wCompare wBase [wSrc] (1/2) [wResult] wBFinal wAligns wCands
    (by with_unfolding_all rfl)).1

/-- Witness for claim C4 at the fixture: the one alignment request of the
run carries the base keys as they stood before the only source. -/
theorem claim_C4_witness :
    wAligns.length = 1 ∧
    ∃ stI : OrchState,
      List.foldlM (processSource wAlign wCompare (1/2)) ⟨[], wBase, []⟩ [] = Except.ok stI ∧
      ∃ pref suf,
        wAligns = pref ++ (⟨wSrc.name, dictKeys stI.base, (detect stI.cache wSrc).1,
          wAlign (dictKeys stI.base) ((detect stI.cache wSrc).1)⟩ : AlignTrace) :: suf ∧
        pref.length = 0 := by
  have h := claim_C4_order_dependent wAlign wCompare wBase [wSrc] (1/2)
    [wResult] wBFinal wAligns wCands (by with_unfolding_all rfl)
  exact ⟨h.1, h.2 [] wSrc [] rfl⟩

/-- A second source with the same name as `wSrc` but a different schema. -/
def wSrc2 : SrcData := { name := "s1.csv", schema := ["x"], profiles := [] }

/-- Witness for claim C7: after detecting `wSrc`, detecting a same-named
source with a different schema still returns the first, cached schema. -/
theorem claim_C7_witness :
    (detect (detect [] wSrc).2 wSrc2).1 = ["full_name", "mail", "addr"] ∧
    (detect (detect [] wSrc).2 wSrc2).1 = (detect [] wSrc).1 :=
  ⟨rfl, (claim_C7_cache_idempotence [] wSrc wSrc2 rfl).1⟩

/-- Witness for claim C8 at the fixture run. -/
theorem claim_C8_witness :
    (∀ m p, ∀ k ∈ dictKeys (normalizeProfile m p), k ∈ m.map (fun kv => kv.2)) ∧
    (∀ t ∈ wCands, t.normalized = normalizeProfile t.mapping t.row ∧
      (∀ k ∈ dictKeys t.normalized, k ∈ t.mapping.map (fun kv => kv.2)) ∧
      (∀ k, dictGet (enrich t.baseBefore t.normalized) k ≠ dictGet t.baseBefore k →
        k ∈ t.mapping.map (fun kv => kv.2))) :=
  claim_C8_mapping_gating wAlign wCompare wBase [wSrc] (1/2) [wResult] wBFinal wAligns wCands
    (by with_unfolding_all rfl)

/-- Witness for claim C9 at the fixture: stripping the two extra keys from
the full variant's result list yields the plain run's output, and both extra
keys are present. -/
theorem claim_C9_witness :
    recursive_match wAlign wCompare wBase [wSrc] (1/2)
      = Except.ok ([wFullResult].map stripExtras, wBFinal) ∧
    ∀ r ∈ [wFullResult], (dictGet r "full_profile").isSome ∧
      (dictGet r "field_mapping").isSome :=
  (claim_C9_variant_equiv wAlign wCompare wBase [wSrc] (1/2)
    (fun bb cc => by unfold wCompare; split <;> first | exact ⟨rfl, rfl⟩ | split <;> exact ⟨rfl, rfl⟩)).2
    [wFullResult] wBFinal (by with_unfolding_all rfl)

/-- Comparator fixture returning a response with no `score` key. -/
def w2Compare : PyDict → PyDict → PyDict := fun _ _ => [("reason", PyVal.str "hm")]

/-- The first candidate recorded when every response lacks a `score` key. -/
def w2Cand1 : CandTrace :=
  ⟨"s1.csv",
   [("full_name", PyVal.str " John "), ("mail", PyVal.str "j@x.com"), ("addr", PyVal.str "NYC")],
   [("full_name", "name"), ("mail", "email")],
   [("name", PyVal.str "John"), ("email", PyVal.str "j@x.com")],
   wBase,
   [("reason", PyVal.str "hm")], 0, false⟩

/-- The second candidate of the score-less fixture run. -/
def w2Cand2 : CandTrace :=
  ⟨"s1.csv",
   [("full_name", PyVal.str "Alice")],
   [("full_name", "name"), ("mail", "email")],
   [("name", PyVal.str "Alice")],
   wBase,
   [("reason", PyVal.str "hm")], 0, false⟩

/-- The candidates recorded when every response lacks a `score` key: the
score used defaults to 0 and nothing is emitted at threshold 1/2. -/
def w2Cands : List CandTrace := [w2Cand1, w2Cand2]

/-- Witness for claim C10: with a score-less response, the first candidate's
used score is 0 and it is not emitted at threshold 1/2. -/
theorem claim_C10_witness :
    w2Cand1.scoreUsed = 0 ∧ w2Cand1.emitted = false :=
  have h := claim_C10_default_score wAlign w2Compare wBase [wSrc] (1/2) [] wBase wAligns w2Cands
    (by with_unfolding_all rfl) w2Cand1 (List.mem_cons_self _ _) rfl
  ⟨h.1, h.2 (by norm_num)⟩

/-- Witness for claim C6's amended statement at a concrete CSV text with a
short data row and a blank line. -/
theorem claim_C6_witness :
    CSVSource.infer_schema ⟨"s", "a,b,c\n1,2\n"⟩ = ["a", "b", "c"] ∧
    CSVSource.get_profiles ⟨"s", "a,b,c\n1,2\n"⟩
      = (([["1", "2"], []] : List (List String)).filter (fun r => !r.isEmpty)).map (fun r =>
          ((["a", "b", "c"] : List String).zip r).map (fun kc => (kc.1, PyVal.str kc.2))
          ++ ((["a", "b", "c"] : List String).drop r.length).map (fun k => (k, PyVal.none))) :=
  claim_C6_tabular_shape "s" "a,b,c\n1,2\n" ["a", "b", "c"] [["1", "2"], []]
    (by with_unfolding_all rfl) (by decide) (by decide)
